import Mathlib

/-!
Verification development for the microVM support library: a shallow embedding
of the guest memory model (`memory_model` crate), the virtio vsock device
(`devices` crate) and the versioned snapshot engine (`snapshot` /
`snapshot_derive` crates), together with proofs settling the frozen claims.

Machine integers (`usize`, `u64`) are embedded as `Nat` with explicit
`% 2^64` / bound hypotheses where overflow matters.
-/

/-! ## Memory model: `mmap.rs` and `guest_memory.rs` -/

/-- The modulus of a 64-bit machine word (`usize` / `u64` on the target). -/
def wordSize : Nat := 2 ^ 64

/-- Embeds `usize::checked_add`: `none` on overflow past `usize::MAX`. -/
def checkedAdd (a b : Nat) : Option Nat :=
  if a + b < wordSize then some (a + b) else none

/-- Embeds `mmap.rs::range_overlap`, taking each range as `(start, size)`.
An overflowing end is treated as an overlap. -/
def rangeOverlap (range1 range2 : Nat × Nat) : Bool :=
  let firstStart := min range1.1 range2.1
  let secondStart := max range1.1 range2.1
  let firstSize := if firstStart = range1.1 then range1.2 else range2.2
  match checkedAdd firstStart firstSize with
  | none => true
  | some firstEnd => decide (firstEnd > secondStart)

/-- Embeds `AnonMemoryDesc`: a guest-physical base address and a size. -/
structure AnonMemoryDesc where
  gpa : Nat
  size : Nat
deriving Repr, DecidableEq

/-- Embeds `AnonMemoryDesc::overlap`. -/
def AnonMemoryDesc.overlap (d1 d2 : AnonMemoryDesc) : Bool :=
  rangeOverlap (d1.gpa, d1.size) (d2.gpa, d2.size)

/-- Embeds `FileMemoryDesc`: a file-backed region descriptor. -/
structure FileMemoryDesc where
  gpa : Nat
  size : Nat
  fd : Int
  offset : Nat
  shared : Bool
deriving Repr, DecidableEq

/-- Embeds `FileMemoryDesc::overlap`: GPA overlap, or same-fd file-offset
overlap. -/
def FileMemoryDesc.overlap (d1 d2 : FileMemoryDesc) : Bool :=
  rangeOverlap (d1.gpa, d1.size) (d2.gpa, d2.size) ||
    (d1.fd == d2.fd && rangeOverlap (d1.offset, d1.size) (d2.offset, d2.size))

/-- Embeds `guest_memory.rs::Error` (the variants the claims mention). -/
inductive GmError where
  | invalidGuestAddress (gpa : Nat)
  | invalidGuestAddressRange (gpa : Nat) (size : Nat)
  | memoryAccess (gpa : Nat)
  | memoryMappingFailed
  | memoryRegionOverlap
  | noMemoryRegions
deriving Repr, DecidableEq

/-- Embeds `MemoryRegion`: a guest base address plus the size of its host
mapping (host mapping contents are modelled separately at the mapping layer). -/
structure MemoryRegion where
  guestBase : Nat
  size : Nat
deriving Repr, DecidableEq

/-- Embeds `guest_memory.rs::region_end`: `guest_base.unchecked_add(size)`,
which wraps modulo 2^64. -/
def regionEnd (r : MemoryRegion) : Nat :=
  (r.guestBase + r.size) % wordSize

/-- Embeds `GuestMemory`: the ordered collection of regions. -/
structure GuestMemory where
  regions : List MemoryRegion
deriving Repr, DecidableEq

/-- Embeds the overlap guard loop shared by `GuestMemory::new_anon` and
`GuestMemory::new_file_backed`: checks every pair `(i, j)` with `i < j`
in order. -/
def anyPairOverlap (ov : α → α → Bool) : List α → Bool
  | [] => false
  | x :: xs => xs.any (ov x) || anyPairOverlap ov xs

/-- Embeds the mapping-construction loop of the `GuestMemory` constructors:
`mmapFails` is the oracle telling whether `mmap` refuses a descriptor. -/
def buildRegions (mmapFails : α → Bool) (toRegion : α → MemoryRegion) :
    List α → Except GmError (List MemoryRegion)
  | [] => .ok []
  | d :: ds =>
    if mmapFails d then .error .memoryMappingFailed
    else (buildRegions mmapFails toRegion ds).map (toRegion d :: ·)

/-- Embeds `GuestMemory::new_anon`. -/
def GuestMemory.newAnon (mmapFails : AnonMemoryDesc → Bool)
    (ranges : List AnonMemoryDesc) : Except GmError GuestMemory :=
  if ranges.isEmpty then .error .noMemoryRegions
  else if anyPairOverlap AnonMemoryDesc.overlap ranges then
    .error .memoryRegionOverlap
  else (buildRegions mmapFails (fun d => ⟨d.gpa, d.size⟩) ranges).map
    (fun rs => ⟨rs⟩)

/-- Embeds `GuestMemory::new_file_backed`. -/
def GuestMemory.newFileBacked (mmapFails : FileMemoryDesc → Bool)
    (ranges : List FileMemoryDesc) : Except GmError GuestMemory :=
  if ranges.isEmpty then .error .noMemoryRegions
  else if anyPairOverlap FileMemoryDesc.overlap ranges then
    .error .memoryRegionOverlap
  else (buildRegions mmapFails (fun d => ⟨d.gpa, d.size⟩) ranges).map
    (fun rs => ⟨rs⟩)

/-- Embeds `Iterator::max_by_key` on `guest_base` as used by
`GuestMemory::end_addr`: when several regions tie, the last one wins. -/
def maxByGuestBase : List MemoryRegion → Option MemoryRegion
  | [] => none
  | r :: rs =>
    match maxByGuestBase rs with
    | none => some r
    | some m => if r.guestBase ≤ m.guestBase then some m else some r

/-- Embeds `GuestMemory::end_addr`: the wrapped endpoint of the region with
the largest guest base, or 0 when there are no regions. -/
def GuestMemory.endAddr (gm : GuestMemory) : Nat :=
  (maxByGuestBase gm.regions).elim 0 regionEnd

/-- Embeds the region-search loop of `GuestMemory::do_in_region`: the first
region whose half-open GPA interval contains `guestAddr`. -/
def findRegion (regions : List MemoryRegion) (guestAddr : Nat) :
    Option MemoryRegion :=
  regions.find? (fun r =>
    decide (r.guestBase ≤ guestAddr) && decide (guestAddr < regionEnd r))

/-- Embeds `GuestMemory::do_in_region` up to the callback: returns the
selected region and the offset of `guestAddr` inside it, or the
`InvalidGuestAddressRange` error. The loop `break`s after the first region
containing `guestAddr` when the object does not fit. -/
def GuestMemory.doInRegion (gm : GuestMemory) (guestAddr size : Nat) :
    Except GmError (MemoryRegion × Nat) :=
  match findRegion gm.regions guestAddr with
  | some r =>
    let offset := guestAddr - r.guestBase
    if size ≤ r.size - offset then .ok (r, offset)
    else .error (.invalidGuestAddressRange guestAddr size)
  | none => .error (.invalidGuestAddressRange guestAddr size)

/-- Embeds the bounds check of `MemoryMapping::write_obj` / `read_obj`:
`offset.overflowing_add(size)` then comparison with the mapping size. -/
def mappingObjBoundsOk (mappingSize offset size : Nat) : Bool :=
  !(decide (offset + size ≥ wordSize) || decide (offset + size > mappingSize))

/-- Embeds `GuestMemory::write_obj_at_addr` for an object of `size` bytes
(success/failure behaviour; the volatile store itself carries no further
failure case once in bounds). -/
def GuestMemory.writeObjAtAddr (gm : GuestMemory) (size guestAddr : Nat) :
    Except GmError Unit :=
  gm.doInRegion guestAddr size >>= fun (r, offset) =>
    if mappingObjBoundsOk r.size offset size then .ok ()
    else .error (.memoryAccess guestAddr)

/-- Embeds `GuestMemory::read_obj_from_addr` for an object of `size` bytes
(success/failure behaviour). -/
def GuestMemory.readObjFromAddr (gm : GuestMemory) (size guestAddr : Nat) :
    Except GmError Unit :=
  gm.doInRegion guestAddr size >>= fun (r, offset) =>
    if mappingObjBoundsOk r.size offset size then .ok ()
    else .error (.memoryAccess guestAddr)

/-! ### Mapping-level slice I/O (`mmap.rs`), with byte contents -/

/-- Embeds `mmap.rs::Error` (the variants the claims mention). -/
inductive MmapError where
  | invalidAddress
  | invalidRange (offset : Nat) (count : Nat)
deriving Repr, DecidableEq

/-- Embeds `MemoryMapping::write_slice` over a mapping whose contents are the
byte list `mem` (`mem.length` is the mapping size). Returns the number of
bytes written and the new contents. -/
def writeSlice (mem buf : List Nat) (offset : Nat) :
    Except MmapError (Nat × List Nat) :=
  if offset ≥ mem.length then .error .invalidAddress
  else
    let n := min buf.length (mem.length - offset)
    .ok (n, mem.take offset ++ buf.take n ++ mem.drop (offset + n))

/-- Embeds `MemoryMapping::read_slice`: returns the number of bytes read and
the new contents of the caller's buffer `buf`. -/
def readSlice (mem buf : List Nat) (offset : Nat) :
    Except MmapError (Nat × List Nat) :=
  if offset ≥ mem.length then .error .invalidAddress
  else
    let n := min buf.length (mem.length - offset)
    .ok (n, (mem.drop offset).take n ++ buf.drop n)

/-! ## Virtio vsock device (`devices/src/virtio/vsock/device.rs`)

The virtio `Queue` primitive, the `VirtioDevice` trait plumbing and the
`byte_order` helpers live outside the provided sources; they are modelled
from the spec where noted. -/

/-- Modelled from the spec: the virtio queue dependency (`Queue::pop`,
`Queue::undo_pop`, `Queue::add_used` of §4.F, absent from the sources).
`avail` is the sequence of descriptor heads the available ring yields,
`nextAvail` the walker position, `used` the `(index, len)` pairs added to
the used ring. -/
structure VirtQueueM where
  avail : List Nat
  nextAvail : Nat
  used : List (Nat × Nat)
deriving Repr, DecidableEq

/-- Modelled from the spec: `Queue::pop` yields the next available
descriptor head and advances the walker. -/
def VirtQueueM.pop (q : VirtQueueM) : Option (Nat × VirtQueueM) :=
  match q.avail[q.nextAvail]? with
  | some head => some (head, { q with nextAvail := q.nextAvail + 1 })
  | none => none

/-- Modelled from the spec: `Queue::undo_pop` rewinds the walker one step so
the last-popped descriptor is re-yielded by the next `pop`. -/
def VirtQueueM.undoPop (q : VirtQueueM) : VirtQueueM :=
  { q with nextAvail := q.nextAvail - 1 }

/-- Modelled from the spec: `Queue::add_used` appends `(index, len)` to the
used ring. -/
def VirtQueueM.addUsed (q : VirtQueueM) (index len : Nat) : VirtQueueM :=
  { q with used := q.used ++ [(index, len)] }

/-- Embeds the per-descriptor environment of `Vsock::process_rx`: whether
`VsockPacket::from_rx_virtq_head` succeeds on a descriptor head, and what
`backend.recv_pkt` does with the packet view. A backend of type `β` answers
`none` for "no data" (any `recv_pkt` error) or `some` with its new state and
the packet's header and payload lengths. -/
structure RxEnv (β : Type) where
  parseRx : Nat → Bool
  recvPkt : β → Nat → Option (β × Nat × Nat)

/-- Embeds the per-descriptor environment of `Vsock::process_tx`:
`VsockPacket::from_tx_virtq_head` success, and `backend.send_pkt` returning
`none` on backend failure. -/
structure TxEnv (β : Type) where
  parseTx : Nat → Bool
  sendPkt : β → Nat → Option β

theorem VirtQueueM.pop_some {q : VirtQueueM} {head : Nat} {q' : VirtQueueM}
    (h : q.pop = some (head, q')) :
    q.avail[q.nextAvail]? = some head ∧
      q' = { q with nextAvail := q.nextAvail + 1 } := by
  unfold VirtQueueM.pop at h
  cases hx : q.avail[q.nextAvail]? with
  | none => simp [hx] at h
  | some v => simp [hx] at h; exact ⟨by rw [h.1], h.2.symm⟩

/-- Embeds the `while let Some(head) = queue.pop(mem)` loop of
`Vsock::process_rx`, carrying the `have_used` flag. -/
def processRxLoop (env : RxEnv β) (q : VirtQueueM) (b : β)
    (haveUsed : Bool) : Bool × VirtQueueM × β :=
  match hpop : q.pop with
  | none => (haveUsed, q, b)
  | some (head, q1) =>
    if env.parseRx head then
      match env.recvPkt b head with
      | some (b1, hdrLen, payLen) =>
        processRxLoop env (q1.addUsed head (hdrLen + payLen)) b1 true
      | none => (haveUsed, q1.undoPop, b)
    else
      processRxLoop env (q1.addUsed head 0) b true
termination_by q.avail.length - q.nextAvail
decreasing_by
  all_goals
    obtain ⟨hgt, rfl⟩ := VirtQueueM.pop_some hpop
    have hlt : q.nextAvail < q.avail.length := by
      by_contra hge
      rw [List.getElem?_eq_none (by omega)] at hgt
      exact Option.noConfusion hgt
    simp [VirtQueueM.addUsed]
    omega

/-- Embeds the `while let Some(head) = queue.pop(mem)` loop of
`Vsock::process_tx`. -/
def processTxLoop (env : TxEnv β) (q : VirtQueueM) (b : β)
    (haveUsed : Bool) : Bool × VirtQueueM × β :=
  match hpop : q.pop with
  | none => (haveUsed, q, b)
  | some (head, q1) =>
    if env.parseTx head then
      match env.sendPkt b head with
      | some b1 => processTxLoop env (q1.addUsed head 0) b1 true
      | none => (haveUsed, q1.undoPop, b)
    else
      processTxLoop env (q1.addUsed head 0) b true
termination_by q.avail.length - q.nextAvail
decreasing_by
  all_goals
    obtain ⟨hgt, rfl⟩ := VirtQueueM.pop_some hpop
    have hlt : q.nextAvail < q.avail.length := by
      by_contra hge
      rw [List.getElem?_eq_none (by omega)] at hgt
      exact Option.noConfusion hgt
    simp [VirtQueueM.addUsed]
    omega

/-- Follows the spec's words (refinement reference for the RX pump, §4.G):
walking the remaining descriptors in order, a successfully parsed and filled
descriptor contributes `(index, header_len + payload_len)`, a parse failure
contributes `(index, 0)`, and backend no-data stops the walk. Returns the
used-ring entries, the number of descriptors consumed, and the final backend
state. -/
def rxUsedEntries (env : RxEnv β) (b : β) :
    List Nat → List (Nat × Nat) × Nat × β
  | [] => ([], 0, b)
  | d :: ds =>
    if env.parseRx d then
      match env.recvPkt b d with
      | some (b1, hdrLen, payLen) =>
        let (es, k, b2) := rxUsedEntries env b1 ds
        ((d, hdrLen + payLen) :: es, k + 1, b2)
      | none => ([], 0, b)
    else
      let (es, k, b2) := rxUsedEntries env b ds
      ((d, 0) :: es, k + 1, b2)

/-- Follows the spec's words (refinement reference for the TX pump, §4.G):
every consumed descriptor is returned with used length 0; backend `send_pkt`
failure stops the walk before consuming the descriptor. -/
def txUsedEntries (env : TxEnv β) (b : β) :
    List Nat → List (Nat × Nat) × Nat × β
  | [] => ([], 0, b)
  | d :: ds =>
    if env.parseTx d then
      match env.sendPkt b d with
      | some b1 =>
        let (es, k, b2) := txUsedEntries env b1 ds
        ((d, 0) :: es, k + 1, b2)
      | none => ([], 0, b)
    else
      let (es, k, b2) := txUsedEntries env b ds
      ((d, 0) :: es, k + 1, b2)

/-- Embeds `DeviceStatus`: `Inactive`, or `Activated` holding the guest
memory handed over by `activate` (memory type abstract here). -/
inductive DeviceStatusM (μ : Type) where
  | inactive
  | activated (mem : μ)
deriving Repr, DecidableEq

/-- Embeds the serialized `VsockState` (queues split out by their fixed
indices: 0 = RX, 1 = TX, 2 = event). -/
structure VsockStateM where
  cid : Nat
  rxQueue : VirtQueueM
  txQueue : VirtQueueM
  evQueue : VirtQueueM
  availFeatures : Nat
  ackedFeatures : Nat
  interruptStatus : Nat
  activated : Bool
deriving Repr, DecidableEq

/-- Embeds the runtime `Vsock` device (eventfds elided; the backend and the
guest-memory handle are type parameters). -/
structure VsockM (β μ : Type) where
  backend : β
  deviceStatus : DeviceStatusM μ
  state : VsockStateM
deriving Repr, DecidableEq

/-- Modelled from the spec: `AVAIL_FEATURES` =
`1 << VIRTIO_F_VERSION_1 | 1 << VIRTIO_F_IN_ORDER` with the virtio-1.1
feature bit numbers 32 and 35 (the `defs::uapi` module is absent from the
sources). -/
def AVAIL_FEATURES : Nat := 2 ^ 32 + 2 ^ 35

/-- Embeds `Vsock::with_queues` (eventfd allocation elided): a fresh device
is `Inactive` with no acked features. -/
def VsockM.withQueues (cid : Nat) (backend : β) (rx tx ev : VirtQueueM) :
    VsockM β μ :=
  { backend
    deviceStatus := .inactive
    state :=
      { cid
        rxQueue := rx
        txQueue := tx
        evQueue := ev
        availFeatures := AVAIL_FEATURES
        ackedFeatures := 0
        interruptStatus := 0
        activated := false } }

/-- Embeds `VirtioDevice::set_acked_features` for `Vsock`:
`self.state.acked_features = acked_features`. -/
def VsockM.setAckedFeatures (dev : VsockM β μ) (ackedFeatures : Nat) :
    VsockM β μ :=
  { dev with state := { dev.state with ackedFeatures } }

/-- Embeds `Vsock::process_rx` including the `device_status` match: `none`
models the panic of the `Inactive` arm (`unreachable!`). -/
def VsockM.processRx (env : RxEnv β) (dev : VsockM β μ) :
    Option (Bool × VsockM β μ) :=
  match dev.deviceStatus with
  | .inactive => none
  | .activated _ =>
    let (haveUsed, q', b') := processRxLoop env dev.state.rxQueue dev.backend false
    some (haveUsed, { dev with backend := b',
                               state := { dev.state with rxQueue := q' } })

/-- Embeds `Vsock::process_tx` including the `device_status` match. -/
def VsockM.processTx (env : TxEnv β) (dev : VsockM β μ) :
    Option (Bool × VsockM β μ) :=
  match dev.deviceStatus with
  | .inactive => none
  | .activated _ =>
    let (haveUsed, q', b') := processTxLoop env dev.state.txQueue dev.backend false
    some (haveUsed, { dev with backend := b',
                               state := { dev.state with txQueue := q' } })

/-- Embeds a little-endian byte encoding of width `n` bytes (modelled from
the spec for the absent `utils::byte_order` helpers, and reused by the
snapshot engine's bincode-style primitive encodings). -/
def leBytes : Nat → Nat → List Nat
  | 0, _ => []
  | n + 1, v => v % 256 :: leBytes n (v / 256)

/-- Embeds `Vsock::read_config`: the match on `(offset, data.len())`.
Returns the caller's buffer after the call. -/
def VsockM.readConfig (dev : VsockM β μ) (offset : Nat) (data : List Nat) :
    List Nat :=
  if offset = 0 ∧ data.length = 8 then leBytes 8 dev.state.cid
  else if offset = 0 ∧ data.length = 4 then leBytes 4 (dev.state.cid % 2 ^ 32)
  else if offset = 4 ∧ data.length = 4 then
    leBytes 4 (dev.state.cid / 2 ^ 32 % 2 ^ 32)
  else data

/-- Embeds `Vsock::write_config`: only a warning is logged; no state
changes. -/
def VsockM.writeConfig (dev : VsockM β μ) (_offset : Nat) (_data : List Nat) :
    VsockM β μ :=
  dev

/-! ## Versioned snapshot engine (`snapshot` crate, `snapshot_derive` crate)

Byte streams are `List Nat` (each element one byte). The `VersionMap` type
lives in `version_map.rs`, which is absent from the sources; it is modelled
from the spec (§4.C). Everything else follows `snapshot/src/lib.rs`,
`snapshot/src/primitives.rs` and the code generated by
`snapshot_derive/src/lib.rs`. -/

/-- Modelled from the spec: `VersionMap` (§4.C) — an ordered list of
app-version slots, each mapping type names to struct versions. -/
structure VersionMap where
  versions : List (List (String × Nat))
deriving Repr, DecidableEq

/-- Modelled from the spec: `VersionMap::new` — one entry, app version 1,
no overrides. -/
def VersionMap.new : VersionMap := ⟨[[]]⟩

/-- Modelled from the spec: `VersionMap::new_version` — append a copy of the
current slot. -/
def VersionMap.newVersion (vm : VersionMap) : VersionMap :=
  ⟨vm.versions ++ [(vm.versions.getLast?).getD []]⟩

/-- Replaces the binding of `name` in an override slot (helper for
`set_type_version`). -/
def setOverride (name : String) (v : Nat) :
    List (String × Nat) → List (String × Nat)
  | [] => [(name, v)]
  | (k, w) :: rest =>
    if k = name then (k, v) :: rest else (k, w) :: setOverride name v rest

/-- Modelled from the spec: `VersionMap::set_type_version` — override `name`
in the current (last) slot. -/
def VersionMap.setTypeVersion (vm : VersionMap) (name : String) (v : Nat) :
    VersionMap :=
  ⟨(vm.versions.dropLast) ++ [setOverride name v ((vm.versions.getLast?).getD [])]⟩

/-- Looks a type name up in an override slot. -/
def lookupOverride (name : String) : List (String × Nat) → Option Nat
  | [] => none
  | (k, v) :: rest => if k = name then some v else lookupOverride name rest

/-- Modelled from the spec: `VersionMap::get_type_version` — the override in
force at app version `app`, or 1 if never set. -/
def VersionMap.getTypeVersion (vm : VersionMap) (app : Nat) (name : String) :
    Nat :=
  ((vm.versions[app - 1]?).bind (lookupOverride name)).getD 1

/-- Modelled from the spec: `VersionMap::get_latest_version` — the highest
app version defined. -/
def VersionMap.getLatestVersion (vm : VersionMap) : Nat :=
  vm.versions.length

/-! ### bincode-style primitive encodings (`primitives.rs`) -/

/-- Embeds the bincode little-endian decoder for an `n`-byte unsigned
integer. -/
def deBytes : Nat → List Nat → Option (Nat × List Nat)
  | 0, l => some (0, l)
  | _ + 1, [] => none
  | n + 1, b :: l => (deBytes n l).map (fun p => (b + 256 * p.1, p.2))

/-- Embeds the bincode encoding of a length-prefixed byte sequence (a Rust
`String` as UTF-8 bytes, or the `Versionize` impl for `Vec<u8>`): a `u64`
little-endian length followed by the bytes. -/
def serByteSeq (s : List Nat) : List Nat :=
  leBytes 8 s.length ++ s

/-- Embeds the matching decoder: read the `u64` length, then that many
bytes (failing like a bincode `unwrap` on a short stream). -/
def deByteSeq (l : List Nat) : Option (List Nat × List Nat) :=
  (deBytes 8 l).bind fun p =>
    if p.1 ≤ p.2.length then some (p.2.take p.1, p.2.drop p.1) else none

/-! ### Snapshot container (`snapshot/src/lib.rs`) -/

/-- Embeds `SNAPSHOT_MAX_SECTION_SIZE` (256 KiB). -/
def SNAPSHOT_MAX_SECTION_SIZE : Nat := 0x40000

/-- Embeds `SNAPSHOT_FORMAT_VERSION`. -/
def SNAPSHOT_FORMAT_VERSION : Nat := 1

/-- Embeds `BASE_MAGIC_ID` for `x86_64`. -/
def BASE_MAGIC_ID : Nat := 0x0710198486640000

/-- Embeds `validate_magic_id`: the arch bits (everything above the low 16)
must equal `BASE_MAGIC_ID`; the low 16 bits are the format version. -/
def validateMagicId (magicId : Nat) : Option Nat :=
  if magicId / 65536 * 65536 = BASE_MAGIC_ID then some (magicId % 65536)
  else none

/-- Embeds `build_magic_id`: `BASE_MAGIC_ID | format_version`. -/
def buildMagicId (formatVersion : Nat) : Nat :=
  BASE_MAGIC_ID ||| formatVersion

/-- Embeds `Snapshot::format_version_map`: `VersionMap::new()`. -/
def formatVersionMap : VersionMap := VersionMap.new

/-- Embeds the generated `Versionize::serialize` for `Section` (fields
`name: String`, `data: Vec<u8>`, struct version 1): `none` models the panic
on an unknown struct version. -/
def serSectionV (vm : VersionMap) (appVersion : Nat)
    (sec : List Nat × List Nat) : Option (List Nat) :=
  if vm.getTypeVersion appVersion "Section" = 1 then
    some (serByteSeq sec.1 ++ serByteSeq sec.2)
  else none

/-- Embeds the generated `Versionize::deserialize` for `Section`. -/
def deSectionV (vm : VersionMap) (appVersion : Nat) (l : List Nat) :
    Option ((List Nat × List Nat) × List Nat) :=
  if vm.getTypeVersion appVersion "Section" = 1 then
    (deByteSeq l).bind fun p =>
      (deByteSeq p.2).map fun q => ((p.1, q.1), q.2)
  else none

/-- Embeds the generated `Versionize::serialize` for `SnapshotHdr` (fields
`data_version: u16`, `section_count: u16`, struct version 1). -/
def serHdrV (vm : VersionMap) (appVersion : Nat) (dataVersion sectionCount : Nat) :
    Option (List Nat) :=
  if vm.getTypeVersion appVersion "SnapshotHdr" = 1 then
    some (leBytes 2 dataVersion ++ leBytes 2 sectionCount)
  else none

/-- Embeds the generated `Versionize::deserialize` for `SnapshotHdr`. -/
def deHdrV (vm : VersionMap) (appVersion : Nat) (l : List Nat) :
    Option ((Nat × Nat) × List Nat) :=
  if vm.getTypeVersion appVersion "SnapshotHdr" = 1 then
    (deBytes 2 l).bind fun p =>
      (deBytes 2 p.2).map fun q => ((p.1, q.1), q.2)
  else none

/-- Embeds `HashMap::insert` on the snapshot's section table (kept as an
association list; an existing name has its data replaced). -/
def insertSec : List (List Nat × List Nat) → List Nat → List Nat →
    List (List Nat × List Nat)
  | [], n, d => [(n, d)]
  | (k, v) :: rest, n, d =>
    if k = n then (k, d) :: rest else (k, v) :: insertSec rest n d

/-- Embeds `HashMap` lookup on the section table. -/
def lookupSec : List (List Nat × List Nat) → List Nat → Option (List Nat)
  | [], _ => none
  | (k, v) :: rest, n => if k = n then some v else lookupSec rest n

/-- Embeds `Snapshot`: header fields, format version, version map, section
table and target version. -/
structure SnapshotM where
  hdrDataVersion : Nat
  hdrSectionCount : Nat
  formatVersion : Nat
  versionMap : VersionMap
  sections : List (List Nat × List Nat)
  targetVersion : Nat
deriving Repr, DecidableEq

/-- Embeds `Snapshot::new` (header defaulted to zeroes). -/
def SnapshotM.new (versionMap : VersionMap) (targetVersion : Nat) : SnapshotM :=
  { hdrDataVersion := 0
    hdrSectionCount := 0
    formatVersion := SNAPSHOT_FORMAT_VERSION
    versionMap
    sections := []
    targetVersion }

/-- Embeds `Snapshot::write_section` for an object with generated serializer
`serF`: the object is serialized with the snapshot's version map and target
version into a `SNAPSHOT_MAX_SECTION_SIZE` buffer (`none` models the panic
when the buffer is exceeded), and the resulting section replaces any prior
entry with the same name. -/
def SnapshotM.writeSectionT (serF : α → VersionMap → Nat → Option (List Nat))
    (s : SnapshotM) (name : List Nat) (object : α) : Option SnapshotM :=
  (serF object s.versionMap s.targetVersion).bind fun bytes =>
    if bytes.length ≤ SNAPSHOT_MAX_SECTION_SIZE then
      some { s with sections := insertSec s.sections name bytes }
    else none

/-- Embeds `Snapshot::save`: magic id, then the header (with
`data_version = target_version` and `section_count = sections.len() as u16`),
then every section, all encoded via the format version map. -/
def SnapshotM.save (s : SnapshotM) : Option (List Nat) :=
  let fvm := formatVersionMap
  let latest := fvm.getLatestVersion
  (serHdrV fvm latest s.targetVersion (s.sections.length % 65536)).bind
    fun hdrBytes =>
      (s.sections.mapM (serSectionV fvm latest)).map fun secBytes =>
        leBytes 8 (buildMagicId latest) ++ hdrBytes ++ secBytes.flatten

/-- Embeds the section-reading loop of `Snapshot::load`. -/
def loadSections (vm : VersionMap) (fv : Nat) :
    Nat → List Nat → List (List Nat × List Nat) →
    Option (List (List Nat × List Nat) × List Nat)
  | 0, l, acc => some (acc, l)
  | n + 1, l, acc =>
    (deSectionV vm fv l).bind fun p =>
      loadSections vm fv n p.2 (insertSec acc p.1.1 p.1.2)

/-- Embeds `Snapshot::load`: decode and validate the magic id (`none` models
the `unwrap` panic), decode the header with the format version map, then
read `section_count` sections. -/
def SnapshotM.load (bytes : List Nat) (versionMap : VersionMap) :
    Option SnapshotM :=
  let fvm := formatVersionMap
  (deBytes 8 bytes).bind fun pm =>
    (validateMagicId pm.1).bind fun fv =>
      (deHdrV fvm fv pm.2).bind fun ph =>
        (loadSections fvm fv ph.1.2 ph.2 []).map fun ps =>
          { hdrDataVersion := ph.1.1
            hdrSectionCount := ph.1.2
            formatVersion := fv
            versionMap
            sections := ps.1
            targetVersion := 0 }

/-- Embeds `Snapshot::read_section` for an object type with generated
deserializer `deF`: an absent name gives `Ok(None)` (here `some none`); a
present one is deserialized with the snapshot's version map and
`hdr.data_version` (outer `none` models a deserializer panic). -/
def SnapshotM.readSectionT (deF : List Nat → VersionMap → Nat → Option α)
    (s : SnapshotM) (name : List Nat) : Option (Option α) :=
  match lookupSec s.sections name with
  | some data => (deF data s.versionMap s.hdrDataVersion).map some
  | none => some none

/-! ### Generated struct deserializers (`snapshot_derive/src/lib.rs`)

The code generated by `StructField::generate_deserializer` and
`DataDescriptor::generate_deserializer`, for a struct whose fields share the
value type `α`. Semantic hooks (`semantic_de_fn`) run after the struct is
assembled and are outside the scope of the claims about field
initializers. -/

/-- Embeds a `StructField` as the derive macro sees it: the version window,
the optional `default_fn`, the `Default::default()` fallback, and the
recursive parser used when the field is present. -/
structure FieldSpec (α : Type) where
  startVersion : Nat
  endVersion : Nat
  defaultFn : Option (Nat → α)
  defaultVal : α
  parse : List Nat → Option (α × List Nat)

/-- Embeds the presence test of `StructField::generate_deserializer`: the
field is absent when `source_version < start_version` or
`end_version > 0 && source_version > end_version`. -/
def fieldExistsAt (f : FieldSpec α) (v : Nat) : Bool :=
  !(decide (v < f.startVersion) ||
    (decide (0 < f.endVersion) && decide (v > f.endVersion)))

/-- Embeds the field initializer emitted by
`StructField::generate_deserializer` inside the branch for struct version
`v`: parse when present, else `default_fn(version)` (note: `version` is the
struct version the branch matched), else `Default::default()`. -/
def fieldDeserialize (f : FieldSpec α) (v : Nat) (l : List Nat) :
    Option (α × List Nat) :=
  if fieldExistsAt f v then f.parse l
  else some ((f.defaultFn.elim f.defaultVal (fun d => d v)), l)

/-- Embeds the field-by-field body of a generated struct deserializer
branch. -/
def fieldsDeserialize : List (FieldSpec α) → Nat → List Nat →
    Option (List α × List Nat)
  | [], _, l => some ([], l)
  | f :: fs, v, l =>
    (fieldDeserialize f v l).bind fun p =>
      (fieldsDeserialize fs v p.2).map fun q => (p.1 :: q.1, q.2)

/-- Embeds the whole generated `deserialize` of
`DataDescriptor::generate_deserializer`: look up the struct version for the
source app version, then run the matching branch (`none` models the panic of
the catch-all arm for versions outside `1..=latest`). -/
def structDeserialize (typeName : String) (latest : Nat)
    (fields : List (FieldSpec α)) (vm : VersionMap) (appVersion : Nat)
    (l : List Nat) : Option (List α × List Nat) :=
  let version := vm.getTypeVersion appVersion typeName
  if 1 ≤ version ∧ version ≤ latest then fieldsDeserialize fields version l
  else none

/-- Embeds the construction of a snapshot by a sequence of `write_section`
calls starting from `Snapshot::new` (`none` as soon as one write panics). -/
def buildSnapshot (serF : α → VersionMap → Nat → Option (List Nat))
    (vm : VersionMap) (tv : Nat) (writes : List (List Nat × α)) :
    Option SnapshotM :=
  writes.foldlM (fun s p => s.writeSectionT serF p.1 p.2) (SnapshotM.new vm tv)

/-- The byte-level encoding of one section as emitted by `Snapshot::save`. -/
def sectionBytes (p : List Nat × List Nat) : List Nat :=
  serByteSeq p.1 ++ serByteSeq p.2

/-- The section table obtained by re-inserting a section list in order, as
`Snapshot::load` does. -/
def reinsertAll (acc : List (List Nat × List Nat))
    (secs : List (List Nat × List Nat)) : List (List Nat × List Nat) :=
  secs.foldl (fun m p => insertSec m p.1 p.2) acc

instance : Inhabited AnonMemoryDesc := ⟨⟨0, 0⟩⟩

instance : Inhabited FileMemoryDesc := ⟨⟨0, 0, 0, 0, false⟩⟩

instance : Inhabited MemoryRegion := ⟨⟨0, 0⟩⟩

/-! ## Helper lemmas -/

theorem buildRegions_ok {f : α → Bool} {t : α → MemoryRegion} :
    ∀ {l : List α} {rs : List MemoryRegion},
      buildRegions f t l = .ok rs → rs = l.map t := by
  intro l
  induction l with
  | nil =>
    intro rs h
    simp only [buildRegions] at h
    cases h
    simp
  | cons d ds ih =>
    intro rs h
    simp only [buildRegions] at h
    split at h
    · exact absurd h (by simp)
    · cases hrec : buildRegions f t ds with
      | error e => rw [hrec] at h; exact absurd h (by simp [Except.map])
      | ok rs0 =>
        rw [hrec] at h
        simp only [Except.map] at h
        cases h
        simp [ih hrec]

theorem anyPairOverlap_iff {ov : α → α → Bool} [Inhabited α] :
    ∀ {l : List α}, anyPairOverlap ov l = true ↔
      ∃ i j, i < j ∧ j < l.length ∧ ov l[i]! l[j]! = true := by
  intro l
  induction l with
  | nil => simp [anyPairOverlap]
  | cons x xs ih =>
    simp only [anyPairOverlap, Bool.or_eq_true, List.any_eq_true]
    constructor
    · rintro (⟨y, hy, hov⟩ | hrec)
      · obtain ⟨k, hk, hyk⟩ := List.mem_iff_getElem.mp hy
        refine ⟨0, k + 1, Nat.succ_pos k, by simpa using hk, ?_⟩
        rw [getElem!_pos (x :: xs) 0 (by simp),
          getElem!_pos (x :: xs) (k + 1) (by simpa using hk)]
        simpa [hyk] using hov
      · obtain ⟨i, j, hij, hj, hov⟩ := ih.mp hrec
        have hi : i < xs.length := by omega
        refine ⟨i + 1, j + 1, by omega, by simpa using hj, ?_⟩
        rw [getElem!_pos (x :: xs) (i + 1) (by simpa using hi),
          getElem!_pos (x :: xs) (j + 1) (by simpa using hj)]
        rw [getElem!_pos xs i hi, getElem!_pos xs j hj] at hov
        simpa using hov
    · rintro ⟨i, j, hij, hj, hov⟩
      match i, j with
      | 0, j + 1 =>
        left
        have hj' : j < xs.length := by simpa using hj
        refine ⟨xs[j], List.getElem_mem hj', ?_⟩
        rw [getElem!_pos (x :: xs) 0 (by simp),
          getElem!_pos (x :: xs) (j + 1) (by simpa using hj')] at hov
        simpa using hov
      | i + 1, j + 1 =>
        right
        apply ih.mpr
        have hj' : j < xs.length := by simpa using hj
        have hi' : i < xs.length := by omega
        refine ⟨i, j, by omega, hj', ?_⟩
        rw [getElem!_pos (x :: xs) (i + 1) (by simpa using hi'),
          getElem!_pos (x :: xs) (j + 1) (by simpa using hj')] at hov
        rw [getElem!_pos xs i hi', getElem!_pos xs j hj']
        simpa using hov

theorem newAnon_empty (f : AnonMemoryDesc → Bool) :
    GuestMemory.newAnon f [] = .error .noMemoryRegions := rfl

theorem newFileBacked_empty (f : FileMemoryDesc → Bool) :
    GuestMemory.newFileBacked f [] = .error .noMemoryRegions := rfl

theorem newAnon_overlap (f : AnonMemoryDesc → Bool)
    (ranges : List AnonMemoryDesc)
    (hov : anyPairOverlap AnonMemoryDesc.overlap ranges = true) :
    GuestMemory.newAnon f ranges = .error .memoryRegionOverlap := by
  have hne : ranges.isEmpty = false := by
    cases ranges with
    | nil => simp [anyPairOverlap] at hov
    | cons a l => rfl
  simp [GuestMemory.newAnon, hne, hov]

theorem newFileBacked_overlap (f : FileMemoryDesc → Bool)
    (ranges : List FileMemoryDesc)
    (hov : anyPairOverlap FileMemoryDesc.overlap ranges = true) :
    GuestMemory.newFileBacked f ranges = .error .memoryRegionOverlap := by
  have hne : ranges.isEmpty = false := by
    cases ranges with
    | nil => simp [anyPairOverlap] at hov
    | cons a l => rfl
  simp [GuestMemory.newFileBacked, hne, hov]

theorem newAnon_ok (f : AnonMemoryDesc → Bool) (ranges : List AnonMemoryDesc)
    (gm : GuestMemory) (h : GuestMemory.newAnon f ranges = .ok gm) :
    ranges ≠ [] ∧ gm.regions = ranges.map (fun d => ⟨d.gpa, d.size⟩) ∧
      anyPairOverlap AnonMemoryDesc.overlap ranges = false := by
  unfold GuestMemory.newAnon at h
  split at h
  · exact absurd h (by simp)
  · rename_i hne
    split at h
    · exact absurd h (by simp)
    · rename_i hov
      cases hbuild : buildRegions f (fun d => ⟨d.gpa, d.size⟩) ranges with
      | error e => rw [hbuild] at h; exact absurd h (by simp [Except.map])
      | ok rs =>
        rw [hbuild] at h
        simp only [Except.map] at h
        cases h
        exact ⟨by simpa using hne, by simpa using buildRegions_ok hbuild,
          by simpa using hov⟩

theorem newFileBacked_ok (f : FileMemoryDesc → Bool)
    (ranges : List FileMemoryDesc) (gm : GuestMemory)
    (h : GuestMemory.newFileBacked f ranges = .ok gm) :
    ranges ≠ [] ∧ gm.regions = ranges.map (fun d => ⟨d.gpa, d.size⟩) ∧
      anyPairOverlap FileMemoryDesc.overlap ranges = false := by
  unfold GuestMemory.newFileBacked at h
  split at h
  · exact absurd h (by simp)
  · rename_i hne
    split at h
    · exact absurd h (by simp)
    · rename_i hov
      cases hbuild : buildRegions f (fun d => ⟨d.gpa, d.size⟩) ranges with
      | error e => rw [hbuild] at h; exact absurd h (by simp [Except.map])
      | ok rs =>
        rw [hbuild] at h
        simp only [Except.map] at h
        cases h
        exact ⟨by simpa using hne, by simpa using buildRegions_ok hbuild,
          by simpa using hov⟩

/-- C3: `GuestMemory` construction is total over its error cases: `new_anon`
and `new_file_backed` fail with `NoMemoryRegions` on an empty range list and
with `MemoryRegionOverlap` whenever a pair of ranges overlaps (GPA overlap
always; for `new_file_backed` also same-fd file-offset overlap); every
successfully constructed `GuestMemory` has a non-empty set of pairwise
non-overlapping regions. -/
theorem guestMemory_construction_error_cases :
    (∀ f, GuestMemory.newAnon f [] = .error .noMemoryRegions) ∧
    (∀ f, GuestMemory.newFileBacked f [] = .error .noMemoryRegions) ∧
    (∀ f ranges,
      (∃ i j, i < j ∧ j < ranges.length ∧
          AnonMemoryDesc.overlap ranges[i]! ranges[j]! = true) →
      GuestMemory.newAnon f ranges = .error .memoryRegionOverlap) ∧
    (∀ f ranges,
      (∃ i j, i < j ∧ j < ranges.length ∧
          FileMemoryDesc.overlap ranges[i]! ranges[j]! = true) →
      GuestMemory.newFileBacked f ranges = .error .memoryRegionOverlap) ∧
    (∀ f ranges gm, GuestMemory.newAnon f ranges = .ok gm →
      gm.regions ≠ [] ∧
      ∀ i j, i < j → j < gm.regions.length →
        rangeOverlap (gm.regions[i]!.guestBase, gm.regions[i]!.size)
          (gm.regions[j]!.guestBase, gm.regions[j]!.size) = false) ∧
    (∀ f ranges gm, GuestMemory.newFileBacked f ranges = .ok gm →
      gm.regions ≠ [] ∧
      ∀ i j, i < j → j < gm.regions.length →
        rangeOverlap (gm.regions[i]!.guestBase, gm.regions[i]!.size)
          (gm.regions[j]!.guestBase, gm.regions[j]!.size) = false) := by
  refine ⟨newAnon_empty, newFileBacked_empty, ?_, ?_, ?_, ?_⟩
  · intro f ranges hex
    exact newAnon_overlap f ranges (anyPairOverlap_iff.mpr hex)
  · intro f ranges hex
    exact newFileBacked_overlap f ranges (anyPairOverlap_iff.mpr hex)
  · intro f ranges gm h
    obtain ⟨hne, hreg, hov⟩ := newAnon_ok f ranges gm h
    constructor
    · simpa [hreg] using hne
    · intro i j hij hj
      have hjr : j < ranges.length := by
        simpa [hreg] using hj
      have hir : i < ranges.length := by omega
      have hno : ¬ ∃ i j, i < j ∧ j < ranges.length ∧
          AnonMemoryDesc.overlap ranges[i]! ranges[j]! = true := by
        intro hex
        rw [anyPairOverlap_iff.mpr hex] at hov
        exact Bool.noConfusion hov
      have hfalse : AnonMemoryDesc.overlap ranges[i]! ranges[j]! = false := by
        by_contra hcon
        exact hno ⟨i, j, hij, hjr, by
          cases hb : AnonMemoryDesc.overlap ranges[i]! ranges[j]! with
          | true => rfl
          | false => exact absurd hb hcon⟩
      have hi' : i < gm.regions.length := by omega
      rw [getElem!_pos gm.regions i hi', getElem!_pos gm.regions j hj]
      rw [getElem!_pos ranges i hir, getElem!_pos ranges j hjr] at hfalse
      have e1 : gm.regions[i] = ⟨ranges[i].gpa, ranges[i].size⟩ := by
        simp [hreg]
      have e2 : gm.regions[j] = ⟨ranges[j].gpa, ranges[j].size⟩ := by
        simp [hreg]
      rw [e1, e2]
      simpa [AnonMemoryDesc.overlap] using hfalse
  · intro f ranges gm h
    obtain ⟨hne, hreg, hov⟩ := newFileBacked_ok f ranges gm h
    constructor
    · simpa [hreg] using hne
    · intro i j hij hj
      have hjr : j < ranges.length := by
        simpa [hreg] using hj
      have hir : i < ranges.length := by omega
      have hno : ¬ ∃ i j, i < j ∧ j < ranges.length ∧
          FileMemoryDesc.overlap ranges[i]! ranges[j]! = true := by
        intro hex
        rw [anyPairOverlap_iff.mpr hex] at hov
        exact Bool.noConfusion hov
      have hfalse : FileMemoryDesc.overlap ranges[i]! ranges[j]! = false := by
        by_contra hcon
        exact hno ⟨i, j, hij, hjr, by
          cases hb : FileMemoryDesc.overlap ranges[i]! ranges[j]! with
          | true => rfl
          | false => exact absurd hb hcon⟩
      have hi' : i < gm.regions.length := by omega
      rw [getElem!_pos gm.regions i hi', getElem!_pos gm.regions j hj]
      rw [getElem!_pos ranges i hir, getElem!_pos ranges j hjr] at hfalse
      have e1 : gm.regions[i] = ⟨ranges[i].gpa, ranges[i].size⟩ := by
        simp [hreg]
      have e2 : gm.regions[j] = ⟨ranges[j].gpa, ranges[j].size⟩ := by
        simp [hreg]
      rw [e1, e2]
      simp only [FileMemoryDesc.overlap, Bool.or_eq_false_iff] at hfalse
      exact hfalse.1

/-- Witness for C3 at concrete inputs: the overlap-rejection scenario
`[(0x0, 0x2000), (0x1000, 0x2000)]` fails with `MemoryRegionOverlap`, and a
successfully built two-region memory is non-empty. -/
theorem guestMemory_construction_error_cases_witness :
    GuestMemory.newAnon (fun _ => false) [⟨0, 0x2000⟩, ⟨0x1000, 0x2000⟩] =
      .error .memoryRegionOverlap ∧
    (GuestMemory.mk [⟨0, 0x1000⟩, ⟨0x2000, 0x1000⟩]).regions ≠ [] := by
  constructor
  · exact guestMemory_construction_error_cases.2.2.1 (fun _ => false)
      [⟨0, 0x2000⟩, ⟨0x1000, 0x2000⟩] ⟨0, 1, by decide, by decide, by decide⟩
  · exact (guestMemory_construction_error_cases.2.2.2.2.1 (fun _ => false)
      [⟨0, 0x1000⟩, ⟨0x2000, 0x1000⟩] (GuestMemory.mk [⟨0, 0x1000⟩, ⟨0x2000, 0x1000⟩])
      rfl).1

theorem rangeOverlap_false_disjoint {a b : Nat × Nat}
    (h : rangeOverlap a b = false) : a.1 + a.2 ≤ b.1 ∨ b.1 + b.2 ≤ a.1 := by
  simp only [rangeOverlap, checkedAdd] at h
  rcases Nat.lt_trichotomy a.1 b.1 with hlt | heq | hgt
  · left
    rw [min_eq_left (Nat.le_of_lt hlt), max_eq_right (Nat.le_of_lt hlt),
      if_pos rfl] at h
    by_cases hw : a.1 + a.2 < wordSize
    · rw [if_pos hw] at h
      simp only [gt_iff_lt, decide_eq_false_iff_not, Nat.not_lt] at h
      exact h
    · rw [if_neg hw] at h
      exact absurd h (by simp)
  · left
    rw [heq, min_self, max_self, if_pos rfl] at h
    by_cases hw : b.1 + a.2 < wordSize
    · rw [if_pos hw] at h
      simp only [gt_iff_lt, decide_eq_false_iff_not, Nat.not_lt] at h
      omega
    · rw [if_neg hw] at h
      exact absurd h (by simp)
  · right
    rw [min_eq_right (Nat.le_of_lt hgt), max_eq_left (Nat.le_of_lt hgt),
      if_neg (by omega : ¬ b.1 = a.1)] at h
    by_cases hw : b.1 + b.2 < wordSize
    · rw [if_pos hw] at h
      simp only [gt_iff_lt, decide_eq_false_iff_not, Nat.not_lt] at h
      exact h
    · rw [if_neg hw] at h
      exact absurd h (by simp)

theorem findRegion_spec {regions : List MemoryRegion} {gpa : Nat}
    {r : MemoryRegion} (h : findRegion regions gpa = some r) :
    r ∈ regions ∧ r.guestBase ≤ gpa ∧ gpa < regionEnd r := by
  refine ⟨List.mem_of_find?_eq_some h, ?_⟩
  have := List.find?_some h
  simpa using this

/-- Under pairwise non-overlap, two regions both containing an address
coincide. -/
theorem containing_region_unique {regions : List MemoryRegion} {gpa : Nat}
    (hdisj : regions.Pairwise (fun a b =>
      rangeOverlap (a.guestBase, a.size) (b.guestBase, b.size) = false))
    {r s : MemoryRegion} (hr : r ∈ regions) (hs : s ∈ regions)
    (hr1 : r.guestBase ≤ gpa) (hr2 : gpa < r.guestBase + r.size)
    (hs1 : s.guestBase ≤ gpa) (hs2 : gpa < s.guestBase + s.size) : r = s := by
  have hd : regions.Pairwise (fun a b =>
      a.guestBase + a.size ≤ b.guestBase ∨
      b.guestBase + b.size ≤ a.guestBase) :=
    hdisj.imp (fun hab => rangeOverlap_false_disjoint hab)
  by_contra hne
  have hsym : Symmetric (fun a b : MemoryRegion =>
      a.guestBase + a.size ≤ b.guestBase ∨
      b.guestBase + b.size ≤ a.guestBase) := by
    intro a b hab
    exact hab.symm
  have hdis := hd.forall hsym hr hs hne
  omega

theorem writeObjAtAddr_eq (gm : GuestMemory) (size gpa : Nat) :
    gm.writeObjAtAddr size gpa =
      (match findRegion gm.regions gpa with
      | some r =>
        if size ≤ r.size - (gpa - r.guestBase) then
          (if mappingObjBoundsOk r.size (gpa - r.guestBase) size then
            Except.ok ()
          else .error (.memoryAccess gpa))
        else .error (.invalidGuestAddressRange gpa size)
      | none => .error (.invalidGuestAddressRange gpa size)) := by
  unfold GuestMemory.writeObjAtAddr GuestMemory.doInRegion
  cases findRegion gm.regions gpa with
  | none => rfl
  | some r =>
    simp only
    split
    · rfl
    · rfl

/-- Characterization of `write_obj_at_addr` under the construction
invariants: success exactly on containment of the whole object range in one
region, `InvalidGuestAddressRange` otherwise. -/
theorem writeObjAtAddr_char (gm : GuestMemory) (gpa size : Nat)
    (hnov : ∀ r ∈ gm.regions, r.guestBase + r.size < wordSize)
    (hdisj : gm.regions.Pairwise (fun a b =>
      rangeOverlap (a.guestBase, a.size) (b.guestBase, b.size) = false)) :
    gm.writeObjAtAddr size gpa =
      if ∃ r ∈ gm.regions, r.guestBase ≤ gpa ∧ gpa < r.guestBase + r.size ∧
          gpa + size ≤ r.guestBase + r.size
      then Except.ok ()
      else Except.error (.invalidGuestAddressRange gpa size) := by
  have hend : ∀ r ∈ gm.regions, regionEnd r = r.guestBase + r.size := by
    intro r hr
    exact Nat.mod_eq_of_lt (hnov r hr)
  rw [writeObjAtAddr_eq]
  cases hfind : findRegion gm.regions gpa with
  | none =>
    rw [if_neg]
    rintro ⟨r, hr, h1, h2, h3⟩
    have hsome : (findRegion gm.regions gpa).isSome := by
      apply List.find?_isSome.mpr
      refine ⟨r, hr, ?_⟩
      simp only [Bool.and_eq_true, decide_eq_true_eq]
      exact ⟨h1, by rw [hend r hr]; omega⟩
    rw [hfind] at hsome
    exact Bool.noConfusion hsome
  | some r0 =>
    obtain ⟨hmem, hc1, hc2⟩ := findRegion_spec hfind
    rw [hend r0 hmem] at hc2
    simp only
    by_cases hfit : size ≤ r0.size - (gpa - r0.guestBase)
    · rw [if_pos hfit]
      have hbounds : mappingObjBoundsOk r0.size (gpa - r0.guestBase) size
          = true := by
        have hword := hnov r0 hmem
        simp only [mappingObjBoundsOk, ge_iff_le, Bool.not_eq_true',
          Bool.or_eq_false_iff, decide_eq_false_iff_not, Nat.not_le, Nat.not_lt]
        simp only [wordSize] at hword ⊢
        omega
      rw [if_pos hbounds, if_pos ⟨r0, hmem, hc1, hc2, by omega⟩]
    · rw [if_neg hfit, if_neg]
      rintro ⟨r, hr, h1, h2, h3⟩
      have : r = r0 := containing_region_unique hdisj hr hmem h1 h2 hc1 hc2
      subst this
      omega

/-- C4: object I/O on `GuestMemory` is all-or-nothing and confined to one
region: for regions satisfying the construction invariants,
`write_obj_at_addr` / `read_obj_from_addr` for a `size`-byte object at `gpa`
succeed exactly when `[gpa, gpa + size)` lies inside a single region, and
fail with `InvalidGuestAddressRange(gpa, size)` otherwise; in particular,
with regions `(0x0, 0x1000)` and `(0x1000, 0x1000)`, an 8-byte write at
`0x1ffc` fails with `InvalidGuestAddressRange(0x1ffc, 8)`. -/
theorem objIO_single_region (gm : GuestMemory) (gpa size : Nat)
    (hnov : ∀ r ∈ gm.regions, r.guestBase + r.size < wordSize)
    (hdisj : gm.regions.Pairwise (fun a b =>
      rangeOverlap (a.guestBase, a.size) (b.guestBase, b.size) = false)) :
    (gm.writeObjAtAddr size gpa = .ok () ↔
      ∃ r ∈ gm.regions, r.guestBase ≤ gpa ∧ gpa < r.guestBase + r.size ∧
        gpa + size ≤ r.guestBase + r.size) ∧
    ((¬ ∃ r ∈ gm.regions, r.guestBase ≤ gpa ∧ gpa < r.guestBase + r.size ∧
        gpa + size ≤ r.guestBase + r.size) →
      gm.writeObjAtAddr size gpa = .error (.invalidGuestAddressRange gpa size)) ∧
    gm.readObjFromAddr size gpa = gm.writeObjAtAddr size gpa ∧
    GuestMemory.writeObjAtAddr ⟨[⟨0, 0x1000⟩, ⟨0x1000, 0x1000⟩]⟩ 8 0x1ffc =
      .error (.invalidGuestAddressRange 0x1ffc 8) := by
  have hchar := writeObjAtAddr_char gm gpa size hnov hdisj
  refine ⟨?_, ?_, rfl, rfl⟩
  · rw [hchar]
    constructor
    · intro h
      by_contra hno
      rw [if_neg hno] at h
      exact Except.noConfusion h
    · intro h
      rw [if_pos h]
  · intro hno
    rw [hchar, if_neg hno]

/-- Witness for C4: on the two-region memory `(0x0, 0x1000)`,
`(0x1000, 0x1000)` (which satisfies the invariants), an 8-byte write at
`0x500` succeeds and one at `0x1ffc` fails with
`InvalidGuestAddressRange(0x1ffc, 8)`. -/
theorem objIO_single_region_witness :
    GuestMemory.writeObjAtAddr ⟨[⟨0, 0x1000⟩, ⟨0x1000, 0x1000⟩]⟩ 8 0x500 =
      .ok () ∧
    GuestMemory.writeObjAtAddr ⟨[⟨0, 0x1000⟩, ⟨0x1000, 0x1000⟩]⟩ 8 0x1ffc =
      .error (.invalidGuestAddressRange 0x1ffc 8) := by
  have h := objIO_single_region ⟨[⟨0, 0x1000⟩, ⟨0x1000, 0x1000⟩]⟩ 0x500 8
    (by decide) (by decide)
  exact ⟨h.1.mpr ⟨⟨0, 0x1000⟩, by decide, by decide, by decide, by decide⟩,
    h.2.2.2⟩

theorem splice_getElem? (mem buf : List Nat) (off n i : Nat)
    (hoff : off ≤ mem.length) (hn : n ≤ buf.length) :
    (mem.take off ++ (buf.take n ++ mem.drop (off + n)))[i]? =
      if i < off then mem[i]?
      else if i < off + n then buf[i - off]?
      else mem[i]? := by
  rw [List.getElem?_append]
  have l1 : (mem.take off).length = off := by
    simp [Nat.min_eq_left hoff]
  rw [l1]
  by_cases h1 : i < off
  · rw [if_pos h1, if_pos h1, List.getElem?_take, if_pos h1]
  · rw [if_neg h1, if_neg h1, List.getElem?_append]
    have l2 : (buf.take n).length = n := by
      simp [Nat.min_eq_left hn]
    rw [l2]
    by_cases h2 : i - off < n
    · rw [if_pos h2, List.getElem?_take, if_pos h2,
        if_pos (show i < off + n by omega)]
    · rw [if_neg h2, if_neg (show ¬ i < off + n by omega),
        List.getElem?_drop]
      congr 1
      omega

theorem readBuf_getElem? (mem buf : List Nat) (off n i : Nat)
    (hn2 : n ≤ mem.length - off) :
    ((mem.drop off).take n ++ buf.drop n)[i]? =
      if i < n then mem[off + i]?
      else buf[i]? := by
  rw [List.getElem?_append]
  have l1 : ((mem.drop off).take n).length = n := by
    simp [Nat.min_eq_left, hn2]
  rw [l1]
  by_cases h1 : i < n
  · rw [if_pos h1, if_pos h1, List.getElem?_take, if_pos h1,
      List.getElem?_drop]
  · rw [if_neg h1, if_neg h1, List.getElem?_drop]
    congr 1
    omega

/-- C5: slice I/O on a `MemoryMapping` clips instead of wrapping: for a
mapping of size `mem.length`, `write_slice`/`read_slice` fail with
`InvalidAddress` iff `off ≥ size`; when `off < size` they transfer exactly
`min(buf.len, size - off)` bytes and return that count, never touching any
byte at or past offset `size` (the pointwise description pins every byte of
the result). -/
theorem sliceIO_clip (mem buf : List Nat) (off : Nat) :
    (off ≥ mem.length →
      writeSlice mem buf off = .error .invalidAddress ∧
      readSlice mem buf off = .error .invalidAddress) ∧
    (off < mem.length →
      ∃ newMem newBuf,
        writeSlice mem buf off =
          .ok (min buf.length (mem.length - off), newMem) ∧
        readSlice mem buf off =
          .ok (min buf.length (mem.length - off), newBuf) ∧
        newMem.length = mem.length ∧
        newBuf.length = buf.length ∧
        (∀ i, newMem.getD i 0 =
          if off ≤ i ∧ i < off + min buf.length (mem.length - off)
          then buf.getD (i - off) 0 else mem.getD i 0) ∧
        (∀ i, newBuf.getD i 0 =
          if i < min buf.length (mem.length - off)
          then mem.getD (off + i) 0 else buf.getD i 0)) := by
  constructor
  · intro hge
    unfold writeSlice readSlice
    rw [if_pos hge, if_pos hge]
    exact ⟨rfl, rfl⟩
  · intro hlt
    set n := min buf.length (mem.length - off) with hn
    have hoff : off ≤ mem.length := Nat.le_of_lt hlt
    have hnbuf : n ≤ buf.length := Nat.min_le_left _ _
    have hnmem : n ≤ mem.length - off := Nat.min_le_right _ _
    refine ⟨mem.take off ++ (buf.take n ++ mem.drop (off + n)),
      (mem.drop off).take n ++ buf.drop n, ?_, ?_, ?_, ?_, ?_, ?_⟩
    · unfold writeSlice
      rw [if_neg (by omega)]
      simp [List.append_assoc]
    · unfold readSlice
      rw [if_neg (by omega)]
    · simp only [List.length_append, List.length_take, List.length_drop]
      omega
    · simp only [List.length_append, List.length_take, List.length_drop]
      omega
    · intro i
      rw [List.getD_eq_getElem?_getD, List.getD_eq_getElem?_getD,
        List.getD_eq_getElem?_getD, splice_getElem? mem buf off n i hoff hnbuf]
      by_cases h1 : i < off
      · rw [if_pos h1, if_neg (by omega)]
      · by_cases h2 : i < off + n
        · rw [if_neg h1, if_pos h2, if_pos ⟨by omega, h2⟩]
        · rw [if_neg h1, if_neg h2, if_neg (by omega)]
    · intro i
      rw [List.getD_eq_getElem?_getD, List.getD_eq_getElem?_getD,
        List.getD_eq_getElem?_getD, readBuf_getElem? mem buf off n i hnmem]
      by_cases h1 : i < n
      · rw [if_pos h1, if_pos h1]
      · rw [if_neg h1, if_neg h1]

/-- Witness for C5: on a 4-byte mapping, a 3-byte write at offset 2 clips to
2 bytes; a write at offset 4 fails with `InvalidAddress`. -/
theorem sliceIO_clip_witness :
    writeSlice [10, 11, 12, 13] [1, 2, 3] 2 = .ok (2, [10, 11, 1, 2]) ∧
    writeSlice [10, 11, 12, 13] [1, 2, 3] 4 = .error .invalidAddress := by
  refine ⟨rfl, ((sliceIO_clip [10, 11, 12, 13] [1, 2, 3] 4).1 (by decide)).1⟩

theorem rangeOverlap_false_le {a b : Nat × Nat}
    (h : rangeOverlap a b = false) (hab : a.1 ≤ b.1) : a.1 + a.2 ≤ b.1 := by
  rcases Nat.lt_or_ge a.1 b.1 with hlt | hge
  · rcases rangeOverlap_false_disjoint h with hc | hc
    · exact hc
    · omega
  · have heq : a.1 = b.1 := by omega
    simp only [rangeOverlap, checkedAdd] at h
    rw [heq, min_self, max_self, if_pos rfl] at h
    by_cases hw : b.1 + a.2 < wordSize
    · rw [if_pos hw] at h
      simp only [gt_iff_lt, decide_eq_false_iff_not, Nat.not_lt] at h
      omega
    · rw [if_neg hw] at h
      exact absurd h (by simp)

theorem rangeOverlap_false_lt {a b : Nat × Nat}
    (h : rangeOverlap a b = false) (hba : b.1 < a.1) : b.1 + b.2 ≤ a.1 := by
  rcases rangeOverlap_false_disjoint h with hc | hc
  · omega
  · exact hc

theorem maxByGuestBase_mem :
    ∀ {l : List MemoryRegion} {m}, maxByGuestBase l = some m → m ∈ l := by
  intro l
  induction l with
  | nil => intro m h; exact absurd h (by simp [maxByGuestBase])
  | cons r rs ih =>
    intro m h
    unfold maxByGuestBase at h
    cases hm : maxByGuestBase rs with
    | none =>
      rw [hm] at h
      cases h
      exact List.mem_cons_self r rs
    | some m' =>
      rw [hm] at h
      simp only at h
      by_cases hle : r.guestBase ≤ m'.guestBase
      · rw [if_pos hle] at h
        cases h
        exact List.mem_cons_of_mem r (ih hm)
      · rw [if_neg hle] at h
        cases h
        exact List.mem_cons_self r rs

theorem maxByGuestBase_none {l : List MemoryRegion}
    (h : maxByGuestBase l = none) : l = [] := by
  cases l with
  | nil => rfl
  | cons r rs =>
    exfalso
    unfold maxByGuestBase at h
    cases hm : maxByGuestBase rs with
    | none => rw [hm] at h; exact Option.noConfusion h
    | some m' =>
      rw [hm] at h
      simp only at h
      by_cases hle : r.guestBase ≤ m'.guestBase
      · rw [if_pos hle] at h; exact Option.noConfusion h
      · rw [if_neg hle] at h; exact Option.noConfusion h

theorem endAddrList_eq :
    ∀ (l : List MemoryRegion), l ≠ [] →
    (∀ r ∈ l, r.guestBase + r.size < wordSize) →
    l.Pairwise (fun a b =>
      rangeOverlap (a.guestBase, a.size) (b.guestBase, b.size) = false) →
    (maxByGuestBase l).elim 0 regionEnd =
      (l.map (fun r => r.guestBase + r.size)).foldr max 0 := by
  intro l
  induction l with
  | nil => intro h; exact absurd rfl h
  | cons r rs ih =>
    intro _ hnov hdisj
    have hendr : regionEnd r = r.guestBase + r.size :=
      Nat.mod_eq_of_lt (hnov r (List.mem_cons_self r rs))
    cases hm : maxByGuestBase rs with
    | none =>
      have hrs : rs = [] := maxByGuestBase_none hm
      subst hrs
      simp [maxByGuestBase, GuestMemory.endAddr, hendr]
    | some m =>
      have hmmem : m ∈ rs := maxByGuestBase_mem hm
      have hrsne : rs ≠ [] := by
        intro hrs
        subst hrs
        exact absurd hm (by simp [maxByGuestBase])
      have hnov' : ∀ s ∈ rs, s.guestBase + s.size < wordSize := by
        intro s hs
        exact hnov s (List.mem_cons_of_mem r hs)
      have ihm := ih hrsne hnov' (List.Pairwise.sublist (List.sublist_cons_self r rs) hdisj)
      rw [hm] at ihm
      simp only [Option.elim] at ihm
      have hendm : regionEnd m = m.guestBase + m.size :=
        Nat.mod_eq_of_lt (hnov' m hmmem)
      have hhead : rangeOverlap (r.guestBase, r.size) (m.guestBase, m.size)
          = false := by
        have := List.pairwise_cons.mp hdisj
        exact this.1 m hmmem
      unfold maxByGuestBase
      rw [hm]
      simp only
      by_cases hle : r.guestBase ≤ m.guestBase
      · rw [if_pos hle]
        simp only [Option.elim, List.map_cons, List.foldr_cons]
        rw [← ihm]
        have hre : r.guestBase + r.size ≤ m.guestBase :=
          rangeOverlap_false_le hhead hle
        rw [hendm]
        omega
      · rw [if_neg hle]
        simp only [Option.elim, List.map_cons, List.foldr_cons]
        rw [← ihm, hendr, hendm]
        have : m.guestBase + m.size ≤ r.guestBase := by
          exact rangeOverlap_false_lt hhead (by omega)
        omega

/-- C6: for every `GuestMemory` satisfying the construction invariants
(non-empty, pairwise non-overlapping, no overflowing region end),
`end_addr()` returns the maximum over all regions of `guest_base + size`,
even though it only computes the endpoint of the region with the largest
`guest_base`. -/
theorem endAddr_is_max (gm : GuestMemory) (hne : gm.regions ≠ [])
    (hnov : ∀ r ∈ gm.regions, r.guestBase + r.size < wordSize)
    (hdisj : gm.regions.Pairwise (fun a b =>
      rangeOverlap (a.guestBase, a.size) (b.guestBase, b.size) = false)) :
    gm.endAddr =
      (gm.regions.map (fun r => r.guestBase + r.size)).foldr max 0 :=
  endAddrList_eq gm.regions hne hnov hdisj

/-- Witness for C6: on regions `(0x0, 0x400)`, `(0x800, 0x400)` the end
address is `0xc00`. -/
theorem endAddr_is_max_witness :
    GuestMemory.endAddr ⟨[⟨0, 0x400⟩, ⟨0x800, 0x400⟩]⟩ = 0xc00 := by
  have h := endAddr_is_max ⟨[⟨0, 0x400⟩, ⟨0x800, 0x400⟩]⟩ (by simp)
    (by decide) (by decide)
  rw [h]
  decide

theorem deBytes_leBytes (n : Nat) :
    ∀ (v : Nat) (r : List Nat),
      deBytes n (leBytes n v ++ r) = some (v % 256 ^ n, r) := by
  induction n with
  | zero =>
    intro v r
    simp [deBytes, leBytes, Nat.mod_one]
  | succ n ih =>
    intro v r
    have hM : 0 < 256 ^ n := Nat.pos_pow_of_pos n (by omega)
    have hq : v / 256 = 256 ^ n * (v / 256 / 256 ^ n) + v / 256 % 256 ^ n :=
      (Nat.div_add_mod _ _).symm
    have hlt : v % 256 + 256 * (v / 256 % 256 ^ n) < 256 * 256 ^ n := by
      have h1 : v % 256 < 256 := Nat.mod_lt _ (by omega)
      have h2 : v / 256 % 256 ^ n < 256 ^ n := Nat.mod_lt _ hM
      have h3 : 256 * (v / 256 % 256 ^ n + 1) ≤ 256 * 256 ^ n :=
        Nat.mul_le_mul_left 256 (Nat.succ_le_of_lt h2)
      omega
    have hv : v = 256 * 256 ^ n * (v / 256 / 256 ^ n) +
        (v % 256 + 256 * (v / 256 % 256 ^ n)) := by
      have hm : v = 256 * (v / 256) + v % 256 := by omega
      calc v = 256 * (v / 256) + v % 256 := hm
        _ = 256 * (256 ^ n * (v / 256 / 256 ^ n) + v / 256 % 256 ^ n)
              + v % 256 := by rw [← hq]
        _ = 256 * 256 ^ n * (v / 256 / 256 ^ n) +
              (v % 256 + 256 * (v / 256 % 256 ^ n)) := by ring
    have hpow : (256 : Nat) ^ (n + 1) = 256 * 256 ^ n := by
      rw [pow_succ]
      ring
    have hkey : v % 256 ^ (n + 1) = v % 256 + 256 * (v / 256 % 256 ^ n) := by
      conv_lhs => rw [hpow, hv]
      rw [Nat.mul_add_mod, Nat.mod_eq_of_lt hlt]
    simp only [leBytes, List.cons_append, deBytes, List.append_eq]
    rw [ih (v / 256) r]
    simp only [Option.map_some']
    rw [hkey]

/-- C8: vsock config-space reads return the CID little-endian: an 8-byte
read at offset 0 yields the full `u64`, 4-byte reads at offsets 0 and 4
yield the low and high halves, every other `(offset, length)` leaves the
caller's buffer unchanged, and `write_config` never changes device state. -/
theorem vsock_config_space (dev : VsockM β μ)
    (hcid : dev.state.cid < 2 ^ 64) :
    (∀ data : List Nat, data.length = 8 →
      dev.readConfig 0 data = leBytes 8 dev.state.cid ∧
      deBytes 8 (dev.readConfig 0 data) = some (dev.state.cid, [])) ∧
    (∀ data : List Nat, data.length = 4 →
      dev.readConfig 0 data = leBytes 4 (dev.state.cid % 2 ^ 32) ∧
      dev.readConfig 4 data = leBytes 4 (dev.state.cid / 2 ^ 32 % 2 ^ 32)) ∧
    (∀ offset data,
      ¬ (offset = 0 ∧ data.length = 8) → ¬ (offset = 0 ∧ data.length = 4) →
      ¬ (offset = 4 ∧ data.length = 4) →
      dev.readConfig offset data = data) ∧
    (∀ offset data, dev.writeConfig offset data = dev) := by
  refine ⟨?_, ?_, ?_, fun _ _ => rfl⟩
  · intro data hlen
    have h8 : dev.readConfig 0 data = leBytes 8 dev.state.cid := by
      unfold VsockM.readConfig
      rw [if_pos ⟨rfl, hlen⟩]
    refine ⟨h8, ?_⟩
    rw [h8]
    have := deBytes_leBytes 8 dev.state.cid []
    rw [List.append_nil] at this
    rw [this, Nat.mod_eq_of_lt (by simpa using hcid)]
  · intro data hlen
    constructor
    · unfold VsockM.readConfig
      rw [if_neg (by omega), if_pos ⟨rfl, hlen⟩]
    · unfold VsockM.readConfig
      rw [if_neg (by omega), if_neg (by omega), if_pos ⟨rfl, hlen⟩]
  · intro offset data h1 h2 h3
    unfold VsockM.readConfig
    rw [if_neg h1, if_neg h2, if_neg h3]

/-- Witness for C8 on a concrete device with CID `0x100000002`: the
full, low and high reads produce the little-endian bytes and an
out-of-bounds read leaves the buffer unchanged. -/
theorem vsock_config_space_witness :
    (VsockM.withQueues 0x100000002 () ⟨[], 0, []⟩ ⟨[], 0, []⟩ ⟨[], 0, []⟩ :
        VsockM Unit Unit).readConfig 0 [9, 9, 9, 9, 9, 9, 9, 9] =
      [2, 0, 0, 0, 1, 0, 0, 0] ∧
    (VsockM.withQueues 0x100000002 () ⟨[], 0, []⟩ ⟨[], 0, []⟩ ⟨[], 0, []⟩ :
        VsockM Unit Unit).readConfig 2 [9, 9, 9, 9, 9, 9, 9, 9] =
      [9, 9, 9, 9, 9, 9, 9, 9] := by
  have h := vsock_config_space
    (VsockM.withQueues 0x100000002 () ⟨[], 0, []⟩ ⟨[], 0, []⟩ ⟨[], 0, []⟩ :
      VsockM Unit Unit) (by decide)
  constructor
  · rw [(h.1 [9, 9, 9, 9, 9, 9, 9, 9] rfl).1]
    decide
  · exact h.2.2.1 2 [9, 9, 9, 9, 9, 9, 9, 9] (by omega) (by omega) (by omega)

/-- C9 counterexample: `set_acked_features` assigns its argument directly,
so a second call with 0 clears a bit acked by a first call with 1 — the
device does un-ack bits under arbitrary `set_acked_features` arguments. -/
theorem vsock_unack_counterexample :
    (((VsockM.withQueues 0 () ⟨[], 0, []⟩ ⟨[], 0, []⟩ ⟨[], 0, []⟩ :
        VsockM Unit Unit).setAckedFeatures 1).state.ackedFeatures).testBit 0
      = true ∧
    ((((VsockM.withQueues 0 () ⟨[], 0, []⟩ ⟨[], 0, []⟩ ⟨[], 0, []⟩ :
        VsockM Unit Unit).setAckedFeatures 1).setAckedFeatures 0).state.ackedFeatures).testBit 0
      = false := by
  constructor
  · rfl
  · rfl

/-- C9 amended: `set_acked_features` overwrites `acked_features` with its
argument, so an already-acked bit stays set after a call exactly when the
argument keeps it; monotonic non-un-acking holds for call sequences whose
arguments preserve the previously acked bits. -/
theorem setAckedFeatures_overwrites (dev : VsockM β μ) (v : Nat) :
    (dev.setAckedFeatures v).state.ackedFeatures = v ∧
    (∀ i, (dev.state.ackedFeatures).testBit i → v.testBit i →
      ((dev.setAckedFeatures v).state.ackedFeatures).testBit i) := by
  exact ⟨rfl, fun i _ hv => hv⟩

/-- Witness for C9's amended statement at a concrete device and argument. -/
theorem setAckedFeatures_overwrites_witness :
    ((VsockM.withQueues 0 () ⟨[], 0, []⟩ ⟨[], 0, []⟩ ⟨[], 0, []⟩ :
        VsockM Unit Unit).setAckedFeatures 5).state.ackedFeatures = 5 ∧
    (((VsockM.withQueues 0 () ⟨[], 0, []⟩ ⟨[], 0, []⟩ ⟨[], 0, []⟩ :
        VsockM Unit Unit).setAckedFeatures 5).setAckedFeatures 7).state.ackedFeatures.testBit 0 = true := by
  refine ⟨(setAckedFeatures_overwrites _ 5).1, ?_⟩
  have h := (setAckedFeatures_overwrites
    ((VsockM.withQueues 0 () ⟨[], 0, []⟩ ⟨[], 0, []⟩ ⟨[], 0, []⟩ :
      VsockM Unit Unit).setAckedFeatures 5) 7).2 0 (by decide) (by decide)
  exact h

/-- C10: `process_rx` and `process_tx` are partial in the device status —
on an `Inactive` device both hit the `unreachable!` arm (modelled as
`none`); once `activate` has succeeded (`Activated`), the panic branch is
unreachable and both pumps are total. -/
theorem processPumps_status (env : RxEnv β) (envT : TxEnv β)
    (dev : VsockM β μ) :
    (dev.deviceStatus = .inactive →
      dev.processRx env = none ∧ dev.processTx envT = none) ∧
    (∀ mem, dev.deviceStatus = .activated mem →
      (dev.processRx env).isSome ∧ (dev.processTx envT).isSome) := by
  constructor
  · intro h
    unfold VsockM.processRx VsockM.processTx
    rw [h]
    exact ⟨rfl, rfl⟩
  · intro mem h
    unfold VsockM.processRx VsockM.processTx
    rw [h]
    exact ⟨rfl, rfl⟩

/-- Witness for C10: a freshly constructed device is `Inactive` and both
pumps panic; after marking it `Activated` both pumps return. -/
theorem processPumps_status_witness :
    ((VsockM.withQueues 0 () ⟨[], 0, []⟩ ⟨[], 0, []⟩ ⟨[], 0, []⟩ :
        VsockM Unit Unit).processRx ⟨fun _ => true, fun b _ => some (b, 0, 0)⟩)
      = none ∧
    (({ (VsockM.withQueues 0 () ⟨[], 0, []⟩ ⟨[], 0, []⟩ ⟨[], 0, []⟩ :
          VsockM Unit Unit) with
        deviceStatus := .activated () }).processRx
          ⟨fun _ => true, fun b _ => some (b, 0, 0)⟩).isSome = true := by
  constructor
  · exact ((processPumps_status ⟨fun _ => true, fun b _ => some (b, 0, 0)⟩
      ⟨fun _ => true, fun b _ => some b⟩
      (VsockM.withQueues 0 () ⟨[], 0, []⟩ ⟨[], 0, []⟩ ⟨[], 0, []⟩)).1 rfl).1
  · exact ((processPumps_status ⟨fun _ => true, fun b _ => some (b, 0, 0)⟩
      ⟨fun _ => true, fun b _ => some b⟩
      ({ (VsockM.withQueues 0 () ⟨[], 0, []⟩ ⟨[], 0, []⟩ ⟨[], 0, []⟩ :
          VsockM Unit Unit) with
        deviceStatus := .activated () })).2 () rfl).1

theorem VirtQueueM.pop_eq_of_lt {q : VirtQueueM}
    (h : q.nextAvail < q.avail.length) :
    q.pop = some (q.avail[q.nextAvail],
      { q with nextAvail := q.nextAvail + 1 }) := by
  unfold VirtQueueM.pop
  rw [List.getElem?_eq_getElem h]

theorem VirtQueueM.pop_eq_none {q : VirtQueueM}
    (h : q.avail.length ≤ q.nextAvail) : q.pop = none := by
  unfold VirtQueueM.pop
  rw [List.getElem?_eq_none h]

theorem processRxLoop_spec (env : RxEnv β) :
    ∀ (fuel : Nat) (q : VirtQueueM) (b : β) (h : Bool),
      q.avail.length - q.nextAvail = fuel →
      q.nextAvail ≤ q.avail.length →
      processRxLoop env q b h =
        ((h || decide ((rxUsedEntries env b (q.avail.drop q.nextAvail)).1 ≠ [])),
         { avail := q.avail,
           nextAvail := q.nextAvail +
             (rxUsedEntries env b (q.avail.drop q.nextAvail)).2.1,
           used := q.used ++ (rxUsedEntries env b (q.avail.drop q.nextAvail)).1 },
         (rxUsedEntries env b (q.avail.drop q.nextAvail)).2.2) := by
  intro fuel
  induction fuel with
  | zero =>
    intro q b h hfuel hle
    have heq : q.nextAvail = q.avail.length := by omega
    have hdrop : q.avail.drop q.nextAvail = [] := by
      rw [heq, List.drop_length]
    rw [processRxLoop, VirtQueueM.pop_eq_none (by omega)]
    simp [hdrop, rxUsedEntries]
  | succ fuel ih =>
    intro q b h hfuel hle
    have hlt : q.nextAvail < q.avail.length := by omega
    have hdrop : q.avail.drop q.nextAvail =
        q.avail[q.nextAvail] :: q.avail.drop (q.nextAvail + 1) :=
      List.drop_eq_getElem_cons hlt
    rw [processRxLoop, VirtQueueM.pop_eq_of_lt hlt]
    simp only
    rw [hdrop]
    by_cases hparse : env.parseRx q.avail[q.nextAvail]
    · rw [if_pos hparse]
      cases hrecv : env.recvPkt b q.avail[q.nextAvail] with
      | some p =>
        obtain ⟨b1, hdrLen, payLen⟩ := p
        have hrec := ih ({ q with nextAvail := q.nextAvail + 1 }.addUsed
            q.avail[q.nextAvail] (hdrLen + payLen)) b1 true
          (by simp [VirtQueueM.addUsed]; omega)
          (by simp [VirtQueueM.addUsed]; omega)
        simp only [VirtQueueM.addUsed] at hrec ⊢
        rw [hrec]
        simp only [rxUsedEntries, hparse, hrecv, if_true, eq_self_iff_true,
          ite_true]
        simp only [Prod.mk.injEq, VirtQueueM.mk.injEq, List.append_assoc,
          List.singleton_append]
        refine ⟨by simp, ⟨trivial, by
          generalize (rxUsedEntries env b1
            (List.drop (q.nextAvail + 1) q.avail)).2.1 = k
          omega, trivial⟩, trivial⟩
      | none =>
        have : (rxUsedEntries env b
            (q.avail[q.nextAvail] :: q.avail.drop (q.nextAvail + 1))) =
            ([], 0, b) := by
          simp [rxUsedEntries, hparse, hrecv]
        rw [this]
        simp [VirtQueueM.undoPop]
    · rw [if_neg hparse]
      have hrec := ih ({ q with nextAvail := q.nextAvail + 1 }.addUsed
          q.avail[q.nextAvail] 0) b true
        (by simp [VirtQueueM.addUsed]; omega)
        (by simp [VirtQueueM.addUsed]; omega)
      simp only [VirtQueueM.addUsed] at hrec ⊢
      rw [hrec]
      have hx : env.parseRx q.avail[q.nextAvail] = false := by
        simpa using hparse
      simp only [rxUsedEntries, hx, Bool.false_eq_true, if_false]
      simp only [Prod.mk.injEq, VirtQueueM.mk.injEq, List.append_assoc,
        List.singleton_append]
      refine ⟨by simp, ⟨trivial, by
        generalize (rxUsedEntries env b
          (List.drop (q.nextAvail + 1) q.avail)).2.1 = k
        omega, trivial⟩, trivial⟩

theorem processTxLoop_spec (env : TxEnv β) :
    ∀ (fuel : Nat) (q : VirtQueueM) (b : β) (h : Bool),
      q.avail.length - q.nextAvail = fuel →
      q.nextAvail ≤ q.avail.length →
      processTxLoop env q b h =
        ((h || decide ((txUsedEntries env b (q.avail.drop q.nextAvail)).1 ≠ [])),
         { avail := q.avail,
           nextAvail := q.nextAvail +
             (txUsedEntries env b (q.avail.drop q.nextAvail)).2.1,
           used := q.used ++ (txUsedEntries env b (q.avail.drop q.nextAvail)).1 },
         (txUsedEntries env b (q.avail.drop q.nextAvail)).2.2) := by
  intro fuel
  induction fuel with
  | zero =>
    intro q b h hfuel hle
    have heq : q.nextAvail = q.avail.length := by omega
    have hdrop : q.avail.drop q.nextAvail = [] := by
      rw [heq, List.drop_length]
    rw [processTxLoop, VirtQueueM.pop_eq_none (by omega)]
    simp [hdrop, txUsedEntries]
  | succ fuel ih =>
    intro q b h hfuel hle
    have hlt : q.nextAvail < q.avail.length := by omega
    have hdrop : q.avail.drop q.nextAvail =
        q.avail[q.nextAvail] :: q.avail.drop (q.nextAvail + 1) :=
      List.drop_eq_getElem_cons hlt
    rw [processTxLoop, VirtQueueM.pop_eq_of_lt hlt]
    simp only
    rw [hdrop]
    by_cases hparse : env.parseTx q.avail[q.nextAvail]
    · rw [if_pos hparse]
      cases hsend : env.sendPkt b q.avail[q.nextAvail] with
      | some b1 =>
        have hrec := ih ({ q with nextAvail := q.nextAvail + 1 }.addUsed
            q.avail[q.nextAvail] 0) b1 true
          (by simp [VirtQueueM.addUsed]; omega)
          (by simp [VirtQueueM.addUsed]; omega)
        simp only [VirtQueueM.addUsed] at hrec ⊢
        rw [hrec]
        simp only [txUsedEntries, hparse, hsend, if_true, eq_self_iff_true,
          ite_true]
        simp only [Prod.mk.injEq, VirtQueueM.mk.injEq, List.append_assoc,
          List.singleton_append]
        refine ⟨by simp, ⟨trivial, by
          generalize (txUsedEntries env b1
            (List.drop (q.nextAvail + 1) q.avail)).2.1 = k
          omega, trivial⟩, trivial⟩
      | none =>
        have hz : (txUsedEntries env b
            (q.avail[q.nextAvail] :: q.avail.drop (q.nextAvail + 1))) =
            ([], 0, b) := by
          simp [txUsedEntries, hparse, hsend]
        rw [hz]
        simp [VirtQueueM.undoPop]
    · rw [if_neg hparse]
      have hrec := ih ({ q with nextAvail := q.nextAvail + 1 }.addUsed
          q.avail[q.nextAvail] 0) b true
        (by simp [VirtQueueM.addUsed]; omega)
        (by simp [VirtQueueM.addUsed]; omega)
      simp only [VirtQueueM.addUsed] at hrec ⊢
      rw [hrec]
      have hx : env.parseTx q.avail[q.nextAvail] = false := by
        simpa using hparse
      simp only [txUsedEntries, hx, Bool.false_eq_true, if_false]
      simp only [Prod.mk.injEq, VirtQueueM.mk.injEq, List.append_assoc,
        List.singleton_append]
      refine ⟨by simp, ⟨trivial, by
        generalize (txUsedEntries env b
          (List.drop (q.nextAvail + 1) q.avail)).2.1 = k
        omega, trivial⟩, trivial⟩

/-- C7: one call to `process_rx` walks the remaining available descriptors
in pop order: a parsed and successfully filled descriptor is added to the
used ring with length `header_len + payload_len`; on backend no-data the
last pop is undone and the loop breaks, leaving that descriptor for the
next call; a parse failure is added with length 0 and the walk continues;
the call returns true iff at least one descriptor was added, and entries
are appended in exactly pop order (`rxUsedEntries` spells out the spec's
per-descriptor clauses; `process_tx` satisfies the mirror property). -/
theorem processRx_pump_spec (env : RxEnv β) (envT : TxEnv β)
    (q qt : VirtQueueM) (b bt : β)
    (hle : q.nextAvail ≤ q.avail.length)
    (hleT : qt.nextAvail ≤ qt.avail.length) :
    processRxLoop env q b false =
      (decide ((rxUsedEntries env b (q.avail.drop q.nextAvail)).1 ≠ []),
       { avail := q.avail,
         nextAvail := q.nextAvail +
           (rxUsedEntries env b (q.avail.drop q.nextAvail)).2.1,
         used := q.used ++ (rxUsedEntries env b (q.avail.drop q.nextAvail)).1 },
       (rxUsedEntries env b (q.avail.drop q.nextAvail)).2.2) ∧
    ((processRxLoop env q b false).1 = true ↔
      (rxUsedEntries env b (q.avail.drop q.nextAvail)).1 ≠ []) ∧
    processTxLoop envT qt bt false =
      (decide ((txUsedEntries envT bt (qt.avail.drop qt.nextAvail)).1 ≠ []),
       { avail := qt.avail,
         nextAvail := qt.nextAvail +
           (txUsedEntries envT bt (qt.avail.drop qt.nextAvail)).2.1,
         used := qt.used ++ (txUsedEntries envT bt (qt.avail.drop qt.nextAvail)).1 },
       (txUsedEntries envT bt (qt.avail.drop qt.nextAvail)).2.2) := by
  have h1 := processRxLoop_spec env (q.avail.length - q.nextAvail) q b false
    rfl hle
  have h2 := processTxLoop_spec envT (qt.avail.length - qt.nextAvail) qt bt
    false rfl hleT
  simp only [Bool.false_or] at h1 h2
  refine ⟨h1, ?_, h2⟩
  rw [h1]
  simp

/-- Witness for C7: RX queue `[7, 1, 8, 9]` against a backend holding two
packets (descriptor 1 fails to parse): descriptors 7, 1, 8 are used with
lengths 15, 0, 15 in pop order, descriptor 9 is left for the next call, and
the call reports `true`. -/
theorem processRx_pump_spec_witness :
    processRxLoop
      ⟨fun d => decide (d ≠ 1), fun b _ => if 0 < b then some (b - 1, 10, 5)
        else none⟩
      ⟨[7, 1, 8, 9], 0, []⟩ (2 : Nat) false =
      (true, ⟨[7, 1, 8, 9], 3, [(7, 15), (1, 0), (8, 15)]⟩, 0) := by
  rw [(processRx_pump_spec
    ⟨fun d => decide (d ≠ 1), fun b _ => if 0 < b then some (b - 1, 10, 5)
      else none⟩
    ⟨fun _ => true, fun b _ => some b⟩
    ⟨[7, 1, 8, 9], 0, []⟩ ⟨[], 0, []⟩ (2 : Nat) (0 : Nat)
    (by decide) (by decide)).1]
  rfl

theorem fieldsDeserialize_defaulted {α : Type} :
    ∀ {fields : List (FieldSpec α)} {v : Nat} {input : List Nat}
      {vals : List α} {rest : List Nat},
      fieldsDeserialize fields v input = some (vals, rest) →
      ∀ i, (hi : i < fields.length) → fieldExistsAt fields[i] v = false →
        vals[i]? = some ((fields[i]).defaultFn.elim (fields[i]).defaultVal
          (fun dflt => dflt v)) := by
  intro fields
  induction fields with
  | nil => intro v input vals rest h i hi; exact absurd hi (by simp)
  | cons f fs ih =>
    intro v input vals rest h i hi habs
    unfold fieldsDeserialize at h
    cases hf : fieldDeserialize f v input with
    | none => rw [hf] at h; exact absurd h (by simp)
    | some p =>
      rw [hf] at h
      simp only [Option.some_bind] at h
      cases hr : fieldsDeserialize fs v p.2 with
      | none =>
        rw [hr] at h
        exact absurd h (by simp)
      | some q =>
        rw [hr] at h
        simp only [Option.map_some'] at h
        cases h
        match i with
        | 0 =>
          simp only [List.getElem_cons_zero] at habs ⊢
          unfold fieldDeserialize at hf
          rw [habs] at hf
          simp only [Bool.false_eq_true, if_false] at hf
          cases hf
          simp
        | i + 1 =>
          simp only [List.getElem_cons_succ] at habs ⊢
          have := ih hr i (by simpa using hi) habs
          simpa using this

/-- C2 counterexample: with a version map holding two app versions and no
override for type `T` (so `get_type_version(2, T) = 1`), deserializing at
source app version 2 a struct whose only field has `start_version = 2` and
`default_fn = id` assigns the field `1` — the struct version — not the
source app version 2 the claim requires. -/
theorem default_fn_arg_counterexample :
    structDeserialize "T" 2
      [⟨2, 0, some (fun v => v), 0, fun l => some (0, l)⟩]
      (VersionMap.new.newVersion) 2 [] = some ([1], []) ∧
    VersionMap.getTypeVersion (VersionMap.new.newVersion) 2 "T" = 1 ∧
    (1 : Nat) ≠ 2 := by
  refine ⟨rfl, rfl, by omega⟩

/-- C2 amended: for every struct field carrying a `default_fn`, when the
struct version `v` in force for the source app version
(`v = version_map.get_type_version(src_app_version, name)`) lies outside
the field's version window, the generated deserializer assigns the field
`default_fn(v)` — the struct version, not the source app version itself. -/
theorem default_fn_gets_struct_version {α : Type} (typeName : String)
    (latest : Nat) (fields : List (FieldSpec α)) (vm : VersionMap)
    (appVersion : Nat) (input : List Nat) (vals : List α) (rest : List Nat)
    (hres : structDeserialize typeName latest fields vm appVersion input =
      some (vals, rest))
    (i : Nat) (hi : i < fields.length) (dflt : Nat → α)
    (hd : (fields[i]).defaultFn = some dflt)
    (habs : fieldExistsAt fields[i]
      (vm.getTypeVersion appVersion typeName) = false) :
    vals[i]? = some (dflt (vm.getTypeVersion appVersion typeName)) := by
  simp only [structDeserialize] at hres
  split at hres
  · have := fieldsDeserialize_defaulted hres i hi habs
    rw [this, hd]
    rfl
  · exact absurd hres (by simp)

/-- Witness for C2's amended statement: the counterexample instance, where
the defaulted field receives the struct version 1. -/
theorem default_fn_gets_struct_version_witness :
    ∃ vals rest, structDeserialize "T" 2
      [⟨2, 0, some (fun v => v), 0, fun l => some (0, l)⟩]
      (VersionMap.new.newVersion) 2 [] = some (vals, rest) ∧
      vals[0]? = some 1 := by
  refine ⟨[1], [], rfl, ?_⟩
  have h := default_fn_gets_struct_version "T" 2
    [⟨2, 0, some (fun v => v), 0, fun l => some (0, l)⟩]
    (VersionMap.new.newVersion) 2 [] [1] [] rfl 0 (by simp)
    (fun v => v) rfl (by rfl)
  simpa using h

theorem deByteSeq_serByteSeq {s : List Nat} (hs : s.length < 2 ^ 64)
    (r : List Nat) : deByteSeq (serByteSeq s ++ r) = some (s, r) := by
  unfold serByteSeq deByteSeq
  rw [List.append_assoc, deBytes_leBytes]
  have hmod : s.length % 256 ^ 8 = s.length := by
    apply Nat.mod_eq_of_lt
    have : (256 : Nat) ^ 8 = 2 ^ 64 := by norm_num
    omega
  simp only [hmod, Option.some_bind]
  rw [if_pos (by simp)]
  rw [List.take_left, List.drop_left]

theorem getTypeVersion_format (name : String) :
    formatVersionMap.getTypeVersion 1 name = 1 := rfl

theorem serSectionV_format (p : List Nat × List Nat) :
    serSectionV formatVersionMap 1 p = some (sectionBytes p) := rfl

theorem deSectionV_round (p : List Nat × List Nat)
    (hn : p.1.length < 2 ^ 64) (hd : p.2.length < 2 ^ 64) (r : List Nat) :
    deSectionV formatVersionMap 1 (sectionBytes p ++ r) = some (p, r) := by
  unfold deSectionV sectionBytes
  rw [if_pos (getTypeVersion_format "Section")]
  rw [List.append_assoc, deByteSeq_serByteSeq hn]
  simp only [Option.some_bind]
  rw [deByteSeq_serByteSeq hd]
  rfl

theorem deHdrV_round (dv sc : Nat) (r : List Nat) :
    deHdrV formatVersionMap 1 (leBytes 2 dv ++ (leBytes 2 sc ++ r)) =
      some ((dv % 65536, sc % 65536), r) := by
  unfold deHdrV
  rw [if_pos (getTypeVersion_format "SnapshotHdr")]
  rw [deBytes_leBytes]
  simp only [Option.some_bind]
  rw [deBytes_leBytes]
  norm_num

theorem loadSections_concat :
    ∀ (secs : List (List Nat × List Nat)) (acc : List (List Nat × List Nat))
      (r : List Nat),
      (∀ p ∈ secs, p.1.length < 2 ^ 64 ∧ p.2.length < 2 ^ 64) →
      loadSections formatVersionMap 1 secs.length
        ((secs.map sectionBytes).flatten ++ r) acc =
        some (reinsertAll acc secs, r) := by
  intro secs
  induction secs with
  | nil =>
    intro acc r _
    simp [loadSections, reinsertAll]
  | cons p ps ih =>
    intro acc r hb
    obtain ⟨hn, hd⟩ := hb p (List.mem_cons_self p ps)
    simp only [List.map_cons, List.flatten_cons, List.length_cons,
      loadSections, List.append_assoc]
    rw [deSectionV_round p hn hd]
    simp only [Option.some_bind]
    rw [ih (insertSec acc p.1 p.2) r
      (fun q hq => hb q (List.mem_cons_of_mem p hq))]
    rfl

theorem mapM_serSectionV (secs : List (List Nat × List Nat)) :
    secs.mapM (serSectionV formatVersionMap 1) =
      some (secs.map sectionBytes) := by
  induction secs with
  | nil => rfl
  | cons p ps ih =>
    rw [List.mapM_cons, serSectionV_format, ih]
    rfl

theorem save_eq (s : SnapshotM) :
    s.save = some (leBytes 8 (buildMagicId 1) ++
      (leBytes 2 s.targetVersion ++ (leBytes 2 (s.sections.length % 65536) ++
        (s.sections.map sectionBytes).flatten))) := by
  have hl : formatVersionMap.getLatestVersion = 1 := rfl
  simp only [SnapshotM.save, hl]
  have hh : serHdrV formatVersionMap 1 s.targetVersion
      (s.sections.length % 65536) =
      some (leBytes 2 s.targetVersion ++ leBytes 2 (s.sections.length % 65536)) := by
    unfold serHdrV
    rw [if_pos (getTypeVersion_format "SnapshotHdr")]
  rw [hh]
  simp only [Option.some_bind]
  rw [mapM_serSectionV]
  simp [List.append_assoc]

theorem validate_build_magic : validateMagicId (buildMagicId 1) = some 1 := by
  decide

theorem buildMagic_lt : buildMagicId 1 < 2 ^ 64 := by
  decide

theorem pow256_8 : (256 : Nat) ^ 8 = 2 ^ 64 := by norm_num

theorem magic_mod : buildMagicId 1 % 256 ^ 8 = buildMagicId 1 := by decide

theorem load_bytes_eq (vm : VersionMap) (m dv sc : Nat)
    (hm8 : m % 256 ^ 8 = m) (hv : validateMagicId m = some 1)
    (secs : List (List Nat × List Nat))
    (hbound : ∀ p ∈ secs, p.1.length < 2 ^ 64 ∧ p.2.length < 2 ^ 64)
    (hsc : sc % 65536 = secs.length) :
    SnapshotM.load (leBytes 8 m ++ (leBytes 2 dv ++ (leBytes 2 sc ++
        (secs.map sectionBytes).flatten))) vm =
      some { hdrDataVersion := dv % 65536
             hdrSectionCount := secs.length
             formatVersion := 1
             versionMap := vm
             sections := reinsertAll [] secs
             targetVersion := 0 } := by
  simp only [SnapshotM.load]
  rw [deBytes_leBytes, hm8]
  simp only [Option.some_bind]
  rw [hv]
  simp only [Option.some_bind]
  rw [deHdrV_round]
  simp only [Option.some_bind]
  rw [hsc, ← List.append_nil ((secs.map sectionBytes).flatten),
    loadSections_concat secs [] [] hbound]
  rfl

theorem load_bytes_wrap (vm : VersionMap) (m dv sc : Nat)
    (hm8 : m % 256 ^ 8 = m) (hv : validateMagicId m = some 1)
    (body : List Nat) (hsc : sc % 65536 = 0) :
    SnapshotM.load (leBytes 8 m ++ (leBytes 2 dv ++ (leBytes 2 sc ++ body)))
        vm =
      some { hdrDataVersion := dv % 65536
             hdrSectionCount := 0
             formatVersion := 1
             versionMap := vm
             sections := []
             targetVersion := 0 } := by
  simp only [SnapshotM.load]
  rw [deBytes_leBytes, hm8]
  simp only [Option.some_bind]
  rw [hv]
  simp only [Option.some_bind]
  rw [deHdrV_round]
  simp only [Option.some_bind]
  rw [hsc]
  rfl

theorem load_save (s : SnapshotM) (htv : s.targetVersion < 65536)
    (hbound : ∀ p ∈ s.sections, p.1.length < 2 ^ 64 ∧ p.2.length < 2 ^ 64)
    (hcount : s.sections.length < 65536) (vm : VersionMap) :
    ∃ out, s.save = some out ∧
      SnapshotM.load out vm = some
        { hdrDataVersion := s.targetVersion
          hdrSectionCount := s.sections.length
          formatVersion := 1
          versionMap := vm
          sections := reinsertAll [] s.sections
          targetVersion := 0 } := by
  refine ⟨_, save_eq s, ?_⟩
  have h := load_bytes_eq vm (buildMagicId 1) s.targetVersion
    (s.sections.length % 65536) magic_mod validate_build_magic s.sections
    hbound (by
      rw [Nat.mod_eq_of_lt (Nat.mod_lt s.sections.length (by omega)),
        Nat.mod_eq_of_lt hcount])
  rw [h, Nat.mod_eq_of_lt htv]

theorem load_save_wrap (s : SnapshotM) (htv : s.targetVersion < 65536)
    (hcount0 : s.sections.length % 65536 = 0) (vm : VersionMap) :
    ∃ out, s.save = some out ∧
      SnapshotM.load out vm = some
        { hdrDataVersion := s.targetVersion
          hdrSectionCount := 0
          formatVersion := 1
          versionMap := vm
          sections := []
          targetVersion := 0 } := by
  refine ⟨_, save_eq s, ?_⟩
  have h := load_bytes_wrap vm (buildMagicId 1) s.targetVersion
    (s.sections.length % 65536) magic_mod validate_build_magic
    ((s.sections.map sectionBytes).flatten) (by
      rw [Nat.mod_eq_of_lt (Nat.mod_lt s.sections.length (by omega)),
        hcount0])
  rw [h, Nat.mod_eq_of_lt htv]

theorem lookup_insertSec_self :
    ∀ (m : List (List Nat × List Nat)) (k v : List Nat),
      lookupSec (insertSec m k v) k = some v := by
  intro m
  induction m with
  | nil => intro k v; simp [insertSec, lookupSec]
  | cons p ps ih =>
    intro k v
    by_cases h : p.1 = k
    · simp [insertSec, h, lookupSec]
    · simp only [insertSec]
      rw [if_neg h]
      simp only [lookupSec]
      rw [if_neg h]
      exact ih k v

theorem lookup_insertSec_ne :
    ∀ (m : List (List Nat × List Nat)) (k v n : List Nat), k ≠ n →
      lookupSec (insertSec m k v) n = lookupSec m n := by
  intro m
  induction m with
  | nil =>
    intro k v n hkn
    simp only [insertSec, lookupSec]
    rw [if_neg (fun h => hkn h)]
  | cons p ps ih =>
    intro k v n hkn
    by_cases h : p.1 = k
    · have hpn : ¬ p.1 = n := by rw [h]; exact hkn
      simp only [insertSec]
      rw [if_pos h]
      simp only [lookupSec]
      rw [if_neg hpn, if_neg hpn]
    · simp only [insertSec]
      rw [if_neg h]
      simp only [lookupSec]
      by_cases h2 : p.1 = n
      · rw [if_pos h2, if_pos h2]
      · rw [if_neg h2, if_neg h2]
        exact ih k v n hkn

theorem insertSec_of_not_mem :
    ∀ (m : List (List Nat × List Nat)) (k v : List Nat),
      k ∉ m.map Prod.fst → insertSec m k v = m ++ [(k, v)] := by
  intro m
  induction m with
  | nil => intro k v _; rfl
  | cons p ps ih =>
    intro k v hk
    simp only [List.map_cons, List.mem_cons] at hk
    push_neg at hk
    simp only [insertSec]
    rw [if_neg (fun h => hk.1 h.symm)]
    rw [ih k v hk.2]
    rfl

theorem keys_insertSec_mem :
    ∀ (m : List (List Nat × List Nat)) (k v : List Nat),
      k ∈ m.map Prod.fst →
      (insertSec m k v).map Prod.fst = m.map Prod.fst := by
  intro m
  induction m with
  | nil => intro k v h; simp at h
  | cons p ps ih =>
    intro k v hk
    by_cases h : p.1 = k
    · simp [insertSec, h]
    · simp only [List.map_cons, List.mem_cons] at hk
      rcases hk with hk | hk
      · exact absurd hk.symm h
      · simp only [insertSec]
        rw [if_neg h]
        simp [ih k v hk]

theorem nodup_insertSec (m : List (List Nat × List Nat)) (k v : List Nat)
    (h : (m.map Prod.fst).Nodup) :
    ((insertSec m k v).map Prod.fst).Nodup := by
  by_cases hk : k ∈ m.map Prod.fst
  · rw [keys_insertSec_mem m k v hk]
    exact h
  · rw [insertSec_of_not_mem m k v hk]
    simp only [List.map_append, List.map_cons, List.map_nil]
    rw [List.nodup_append]
    exact ⟨h, List.nodup_singleton _, by
      intro a ha hb
      simp only [List.mem_cons, List.not_mem_nil, or_false] at hb
      subst hb
      exact hk ha⟩

theorem mem_insertSec :
    ∀ (m : List (List Nat × List Nat)) (k v : List Nat) (p),
      p ∈ insertSec m k v → p ∈ m ∨ p = (k, v) := by
  intro m
  induction m with
  | nil => intro k v p hp; simp [insertSec] at hp; exact Or.inr hp
  | cons q qs ih =>
    intro k v p hp
    simp only [insertSec] at hp
    by_cases h : q.1 = k
    · rw [if_pos h] at hp
      rcases List.mem_cons.mp hp with h1 | h1
      · right
        rw [h1, h]
      · left
        exact List.mem_cons_of_mem q h1
    · rw [if_neg h] at hp
      rcases List.mem_cons.mp hp with h1 | h1
      · left
        rw [h1]
        exact List.mem_cons_self q qs
      · rcases ih k v p h1 with h2 | h2
        · left
          exact List.mem_cons_of_mem q h2
        · right
          exact h2

theorem length_insertSec_not_mem (m : List (List Nat × List Nat))
    (k v : List Nat) (hk : k ∉ m.map Prod.fst) :
    (insertSec m k v).length = m.length + 1 := by
  rw [insertSec_of_not_mem m k v hk]
  simp

theorem reinsertAll_fresh :
    ∀ (secs acc : List (List Nat × List Nat)),
      (secs.map Prod.fst).Nodup →
      (∀ k ∈ secs.map Prod.fst, k ∉ acc.map Prod.fst) →
      reinsertAll acc secs = acc ++ secs := by
  intro secs
  induction secs with
  | nil => intro acc _ _; simp [reinsertAll]
  | cons p ps ih =>
    intro acc hnd hfresh
    simp only [reinsertAll, List.foldl_cons]
    have hp1 : p.1 ∉ acc.map Prod.fst :=
      hfresh p.1 (by simp)
    rw [insertSec_of_not_mem acc p.1 p.2 hp1]
    simp only [List.map_cons] at hnd
    have hnd' := List.nodup_cons.mp hnd
    have harg : ∀ k ∈ List.map Prod.fst ps,
        k ∉ List.map Prod.fst (acc ++ [(p.1, p.2)]) := by
      intro k hk
      simp only [List.map_append, List.mem_append, List.map_cons,
        List.map_nil, List.mem_cons, List.not_mem_nil, or_false]
      push_neg
      constructor
      · exact hfresh k (by simp [hk])
      · intro hkp
        rw [hkp] at hk
        exact hnd'.1 hk
    have hres := ih (acc ++ [(p.1, p.2)]) hnd'.2 harg
    simp only [reinsertAll] at hres
    rw [hres]
    simp

theorem writeSectionT_some {α : Type}
    {serF : α → VersionMap → Nat → Option (List Nat)} {s S1 : SnapshotM}
    {n : List Nat} {obj : α}
    (h : s.writeSectionT serF n obj = some S1) :
    ∃ bytes, serF obj s.versionMap s.targetVersion = some bytes ∧
      bytes.length ≤ SNAPSHOT_MAX_SECTION_SIZE ∧
      S1 = { s with sections := insertSec s.sections n bytes } := by
  unfold SnapshotM.writeSectionT at h
  cases hser : serF obj s.versionMap s.targetVersion with
  | none => rw [hser] at h; exact absurd h (by simp)
  | some bytes =>
    rw [hser] at h
    simp only [Option.some_bind] at h
    split at h
    · rename_i hlen
      cases h
      exact ⟨bytes, rfl, hlen, rfl⟩
    · exact absurd h (by simp)

theorem foldlM_ws_nil {α : Type}
    (serF : α → VersionMap → Nat → Option (List Nat)) (s0 : SnapshotM) :
    ([] : List (List Nat × α)).foldlM
      (fun s p => s.writeSectionT serF p.1 p.2) s0 = some s0 := rfl

theorem foldlM_ws_cons {α : Type}
    (serF : α → VersionMap → Nat → Option (List Nat))
    (w : List Nat × α) (ws : List (List Nat × α)) (s0 : SnapshotM) :
    (w :: ws).foldlM (fun s p => s.writeSectionT serF p.1 p.2) s0 =
      (s0.writeSectionT serF w.1 w.2).bind fun s1 =>
        ws.foldlM (fun s p => s.writeSectionT serF p.1 p.2) s1 := rfl

theorem buildFold_spec {α : Type}
    {serF : α → VersionMap → Nat → Option (List Nat)} :
    ∀ (writes : List (List Nat × α)) (s0 S : SnapshotM),
      writes.foldlM (fun s p => s.writeSectionT serF p.1 p.2) s0 = some S →
      S.versionMap = s0.versionMap ∧ S.targetVersion = s0.targetVersion ∧
      (∀ q ∈ S.sections, q ∈ s0.sections ∨
        (∃ w ∈ writes, w.1 = q.1) ∧ q.2.length ≤ SNAPSHOT_MAX_SECTION_SIZE) ∧
      ((s0.sections.map Prod.fst).Nodup → (S.sections.map Prod.fst).Nodup) ∧
      (∀ n, (∀ w ∈ writes, w.1 ≠ n) →
        lookupSec S.sections n = lookupSec s0.sections n) := by
  intro writes
  induction writes with
  | nil =>
    intro s0 S h
    rw [foldlM_ws_nil] at h
    cases h
    exact ⟨rfl, rfl, fun q hq => Or.inl hq, fun hd => hd, fun n _ => rfl⟩
  | cons w ws ih =>
    intro s0 S h
    rw [foldlM_ws_cons] at h
    cases h1 : s0.writeSectionT serF w.1 w.2 with
    | none => rw [h1] at h; exact absurd h (by simp)
    | some s1 =>
      rw [h1] at h
      simp only [Option.some_bind] at h
      obtain ⟨bytes, hser, hlen, hs1⟩ := writeSectionT_some h1
      obtain ⟨hvm, htv, hmem, hnd, hlook⟩ := ih s1 S h
      subst hs1
      refine ⟨hvm, htv, ?_, ?_, ?_⟩
      · intro q hq
        rcases hmem q hq with hq1 | hq1
        · simp only at hq1
          rcases mem_insertSec s0.sections w.1 bytes q hq1 with h2 | h2
          · exact Or.inl h2
          · refine Or.inr ⟨⟨w, List.mem_cons_self w ws, by rw [h2]⟩, ?_⟩
            rw [h2]
            exact hlen
        · exact Or.inr ⟨⟨hq1.1.choose, List.mem_cons_of_mem w hq1.1.choose_spec.1,
            hq1.1.choose_spec.2⟩, hq1.2⟩
      · intro hd
        apply hnd
        exact nodup_insertSec s0.sections w.1 bytes hd
      · intro n hn
        rw [hlook n (fun w2 hw2 => hn w2 (List.mem_cons_of_mem w hw2))]
        simp only
        exact lookup_insertSec_ne s0.sections w.1 bytes n
          (hn w (List.mem_cons_self w ws))

theorem buildFold_lookup {α : Type}
    {serF : α → VersionMap → Nat → Option (List Nat)} :
    ∀ (writes : List (List Nat × α)) (s0 S : SnapshotM),
      writes.foldlM (fun s p => s.writeSectionT serF p.1 p.2) s0 = some S →
      (writes.map Prod.fst).Nodup →
      ∀ w ∈ writes, ∃ bytes,
        serF w.2 s0.versionMap s0.targetVersion = some bytes ∧
        lookupSec S.sections w.1 = some bytes := by
  intro writes
  induction writes with
  | nil => intro s0 S h _ w hw; exact absurd hw (by simp)
  | cons w0 ws ih =>
    intro s0 S h hnd w hw
    rw [foldlM_ws_cons] at h
    cases h1 : s0.writeSectionT serF w0.1 w0.2 with
    | none => rw [h1] at h; exact absurd h (by simp)
    | some s1 =>
      rw [h1] at h
      simp only [Option.some_bind] at h
      obtain ⟨bytes, hser, hlen, hs1⟩ := writeSectionT_some h1
      simp only [List.map_cons, List.nodup_cons] at hnd
      rcases List.mem_cons.mp hw with hw0 | hws
      · subst hw0
        refine ⟨bytes, hser, ?_⟩
        have hpres := (buildFold_spec ws s1 S h).2.2.2.2 w.1
          (fun w2 hw2 => by
            intro heq
            exact hnd.1 (heq ▸ (List.mem_map_of_mem Prod.fst hw2)))
        rw [hpres, hs1]
        simp only
        exact lookup_insertSec_self s0.sections w.1 bytes
      · have hvm1 : s1.versionMap = s0.versionMap := by rw [hs1]
        have htv1 : s1.targetVersion = s0.targetVersion := by rw [hs1]
        obtain ⟨bytes2, hser2, hlook2⟩ := ih s1 S h hnd.2 w hws
        exact ⟨bytes2, by rw [← hvm1, ← htv1]; exact hser2, hlook2⟩

theorem buildFold_length {α : Type}
    {serF : α → VersionMap → Nat → Option (List Nat)} :
    ∀ (writes : List (List Nat × α)) (s0 S : SnapshotM),
      writes.foldlM (fun s p => s.writeSectionT serF p.1 p.2) s0 = some S →
      (writes.map Prod.fst).Nodup →
      (∀ w ∈ writes, w.1 ∉ s0.sections.map Prod.fst) →
      S.sections.length = s0.sections.length + writes.length := by
  intro writes
  induction writes with
  | nil =>
    intro s0 S h _ _
    rw [foldlM_ws_nil] at h
    cases h
    simp
  | cons w0 ws ih =>
    intro s0 S h hnd hfresh
    rw [foldlM_ws_cons] at h
    cases h1 : s0.writeSectionT serF w0.1 w0.2 with
    | none => rw [h1] at h; exact absurd h (by simp)
    | some s1 =>
      rw [h1] at h
      simp only [Option.some_bind] at h
      obtain ⟨bytes, hser, hlen, hs1⟩ := writeSectionT_some h1
      simp only [List.map_cons, List.nodup_cons] at hnd
      have hkeys1 : s1.sections.map Prod.fst =
          s0.sections.map Prod.fst ++ [w0.1] := by
        rw [hs1]
        simp only
        rw [insertSec_of_not_mem s0.sections w0.1 bytes
          (hfresh w0 (List.mem_cons_self w0 ws))]
        simp
      have hrec := ih s1 S h hnd.2 (by
        intro w hw
        rw [hkeys1]
        simp only [List.mem_append, List.mem_cons, List.not_mem_nil, or_false]
        push_neg
        constructor
        · exact hfresh w (List.mem_cons_of_mem w0 hw)
        · intro heq
          exact hnd.1 (heq ▸ (List.mem_map_of_mem Prod.fst hw)))
      rw [hrec, hs1]
      simp only
      rw [length_insertSec_not_mem s0.sections w0.1 bytes
        (hfresh w0 (List.mem_cons_self w0 ws))]
      simp only [List.length_cons]
      omega

theorem buildFold_total {α : Type}
    {serF : α → VersionMap → Nat → Option (List Nat)} :
    ∀ (writes : List (List Nat × α)) (s0 : SnapshotM),
      (∀ w ∈ writes, ∃ bytes,
        serF w.2 s0.versionMap s0.targetVersion = some bytes ∧
        bytes.length ≤ SNAPSHOT_MAX_SECTION_SIZE) →
      ∃ S, writes.foldlM (fun s p => s.writeSectionT serF p.1 p.2) s0 =
        some S := by
  intro writes
  induction writes with
  | nil => intro s0 _; exact ⟨s0, rfl⟩
  | cons w0 ws ih =>
    intro s0 hall
    obtain ⟨bytes, hser, hlen⟩ := hall w0 (List.mem_cons_self w0 ws)
    have h1 : s0.writeSectionT serF w0.1 w0.2 =
        some { s0 with sections := insertSec s0.sections w0.1 bytes } := by
      unfold SnapshotM.writeSectionT
      rw [hser]
      simp only [Option.some_bind]
      rw [if_pos hlen]
    obtain ⟨S, hS⟩ := ih { s0 with sections := insertSec s0.sections w0.1 bytes }
      (by
        intro w hw
        exact hall w (List.mem_cons_of_mem w0 hw))
    exact ⟨S, by
      rw [foldlM_ws_cons, h1]
      simpa using hS⟩

/-- C1 (amended): for a snapshot built with version map `vm` and target
version `tv` by `write_section` calls with distinct names (serializers
`serF`, matching deserializers `deF` that recover each value up to the
restriction `w` to fields present at the target struct version), and
holding fewer than 65536 sections, saving and re-loading with the same
version map yields a snapshot whose `read_section` returns `Some (w v_i)`
for every written `(n_i, v_i)` and `None` for every absent name. -/
theorem snapshot_roundtrip (α : Type)
    (serF : α → VersionMap → Nat → Option (List Nat))
    (deF : List Nat → VersionMap → Nat → Option α) (w : α → α)
    (vm : VersionMap) (tv : Nat) (htv : tv < 65536)
    (writes : List (List Nat × α))
    (hnames : ∀ p ∈ writes, p.1.length < 2 ^ 64)
    (hnodup : (writes.map Prod.fst).Nodup)
    (S : SnapshotM) (hbuild : buildSnapshot serF vm tv writes = some S)
    (hcount : S.sections.length < 65536)
    (hrt : ∀ p ∈ writes, ∀ bytes, serF p.2 vm tv = some bytes →
      deF bytes vm tv = some (w p.2)) :
    ∃ out S2, S.save = some out ∧ SnapshotM.load out vm = some S2 ∧
      (∀ p ∈ writes, S2.readSectionT deF p.1 = some (some (w p.2))) ∧
      (∀ name, (∀ p ∈ writes, p.1 ≠ name) →
        S2.readSectionT deF name = some none) := by
  unfold buildSnapshot at hbuild
  obtain ⟨hvm, htv2, hmemb, hnd, hpres⟩ :=
    buildFold_spec writes (SnapshotM.new vm tv) S hbuild
  have hvm' : S.versionMap = vm := hvm
  have htv' : S.targetVersion = tv := htv2
  have hndS : (S.sections.map Prod.fst).Nodup := hnd (by simp [SnapshotM.new])
  have hbound : ∀ p ∈ S.sections, p.1.length < 2 ^ 64 ∧ p.2.length < 2 ^ 64 := by
    intro q hq
    rcases hmemb q hq with hq1 | hq1
    · exact absurd hq1 (by simp [SnapshotM.new])
    · obtain ⟨⟨w0, hw0, hw0n⟩, hqlen⟩ := hq1
      constructor
      · rw [← hw0n]
        exact hnames w0 hw0
      · have : SNAPSHOT_MAX_SECTION_SIZE < 2 ^ 64 := by norm_num [SNAPSHOT_MAX_SECTION_SIZE]
        omega
  obtain ⟨out, hsave, hload⟩ := load_save S (htv' ▸ htv) hbound hcount vm
  have hreins : reinsertAll [] S.sections = S.sections := by
    rw [reinsertAll_fresh S.sections [] hndS (by simp)]
    simp
  refine ⟨out, _, hsave, hload, ?_, ?_⟩
  · intro p hp
    obtain ⟨bytes, hser, hlook⟩ :=
      buildFold_lookup writes (SnapshotM.new vm tv) S hbuild hnodup p hp
    unfold SnapshotM.readSectionT
    simp only [hreins]
    rw [hlook]
    have hde := hrt p hp bytes hser
    rw [htv', hvm'] at *
    simp [hde, htv', hvm']
  · intro name hn
    unfold SnapshotM.readSectionT
    simp only [hreins]
    rw [hpres name hn]
    have : lookupSec (SnapshotM.new vm tv).sections name = none := rfl
    rw [this]

/-- Witness for C1's amended statement: one section named `[65]` with a
one-byte payload round-trips through save and load. -/
theorem snapshot_roundtrip_witness :
    ∃ out S2,
      SnapshotM.save { SnapshotM.new VersionMap.new 1 with
        sections := [([65], [7])] } = some out ∧
      SnapshotM.load out VersionMap.new = some S2 ∧
      S2.readSectionT (fun l _ _ => if l = [7] then some () else none) [65] =
        some (some ()) ∧
      S2.readSectionT (fun l _ _ => if l = [7] then some () else none) [66] =
        some none := by
  obtain ⟨out, S2, h1, h2, h3, h4⟩ := snapshot_roundtrip Unit
    (fun _ _ _ => some [7]) (fun l _ _ => if l = [7] then some () else none)
    id VersionMap.new 1 (by omega) [([65], ())]
    (by
      rintro p hp
      simp only [List.mem_singleton] at hp
      rw [hp]
      norm_num)
    (by simp)
    { SnapshotM.new VersionMap.new 1 with sections := [([65], [7])] } rfl
    (by simp)
    (by
      rintro p hp bytes hser
      cases hser
      simp)
  exact ⟨out, S2, h1, h2, h3 ([65], ()) (by simp),
    h4 [66] (by rintro p hp; simp only [List.mem_singleton] at hp; rw [hp]; simp)⟩

theorem replicate_inj : Function.Injective (fun i => List.replicate i (0 : Nat)) := by
  intro a b h
  have := congrArg List.length h
  simpa using this

/-- C1 counterexample: the claim fails as stated. Build a snapshot by 65536
`write_section` calls with distinct names; `save` stores
`section_count = sections.len() as u16 = 0`, so loading the stream back
finds no sections and `read_section` of the written name `[]` returns
`None` instead of `Some v`. -/
theorem snapshot_roundtrip_counterexample :
    ∃ S out S2,
      buildSnapshot (fun (_ : Unit) _ _ => some [7]) VersionMap.new 1
        ((List.range 65536).map (fun i => (List.replicate i 0, ()))) =
        some S ∧
      lookupSec S.sections [] = some [7] ∧
      S.save = some out ∧
      SnapshotM.load out VersionMap.new = some S2 ∧
      S2.readSectionT (fun l _ _ => if l = [7] then some () else none) [] =
        some none := by
  have hnodup : ((((List.range 65536).map
      (fun i => (List.replicate i (0 : Nat), ()))).map Prod.fst)).Nodup := by
    rw [List.map_map]
    exact (List.nodup_range 65536).map (by
      intro a b h
      simp only [Function.comp] at h
      exact replicate_inj h)
  obtain ⟨S, hbuild⟩ := @buildFold_total Unit (fun _ _ _ => some [7])
    ((List.range 65536).map (fun i => (List.replicate i 0, ())))
    (SnapshotM.new VersionMap.new 1)
    (by
      intro w _
      exact ⟨[7], rfl, by norm_num [SNAPSHOT_MAX_SECTION_SIZE]⟩)
  have hbuild' : buildSnapshot (fun (_ : Unit) _ _ => some [7])
      VersionMap.new 1
      ((List.range 65536).map (fun i => (List.replicate i 0, ()))) =
      some S := hbuild
  obtain ⟨hvm, htv2, _, _, _⟩ := buildFold_spec _ _ _ hbuild
  have hnewsec : (SnapshotM.new VersionMap.new 1).sections = [] := rfl
  have hlen : S.sections.length = 65536 := by
    have hl := buildFold_length _ _ _ hbuild hnodup (by
      intro w _ hw
      rw [hnewsec] at hw
      simp at hw)
    rw [hnewsec, List.length_nil, List.length_map, List.length_range] at hl
    omega
  have hmem : ((List.replicate 0 (0 : Nat), ()) : List Nat × Unit) ∈
      (List.range 65536).map (fun i => (List.replicate i 0, ())) :=
    List.mem_map.mpr ⟨0, List.mem_range.mpr (by norm_num), rfl⟩
  obtain ⟨bytes, hser, hlook⟩ := buildFold_lookup _ _ _ hbuild hnodup _ hmem
  have hbytes : bytes = [7] := by
    cases hser
    rfl
  subst hbytes
  have hnewtv : (SnapshotM.new VersionMap.new 1).targetVersion = 1 := rfl
  obtain ⟨out, hsave, hload⟩ := load_save_wrap S
    (by rw [htv2, hnewtv]; omega) (by rw [hlen]) VersionMap.new
  refine ⟨S, out, _, hbuild', by simpa using hlook, hsave, hload, rfl⟩
